import Mathlib

/-!
Verification of `Bio/Align/fasta.py` (aligned-FASTA alignment reader and
writer).  The Python source is embedded shallowly: lines of text are
`List Char`, fallible code returns `Except PyError`, and the pieces of the
repository that live outside the provided source (the coordinate-inference
algorithm and the gapped-line reconstruction of `Bio.Align.Alignment`, and
the record container `Bio.SeqRecord.SeqRecord`) are modelled from the
specification, as marked on each definition.
-/

/-- Whitespace test matching Python's `str.strip` / `str.split(None)`
character class for the characters that occur in text lines. -/
def isWS (c : Char) : Bool :=
  c = ' ' || c = '\t' || c = '\n' || c = '\r' || c = '\x0b' || c = '\x0c'

/-- Python `str.rstrip()` on a list of characters. -/
def rstripL (l : List Char) : List Char :=
  (l.reverse.dropWhile isWS).reverse

/-- Python `str.strip()` on a list of characters (trailing run removed
first, then the leading run; the order does not affect the result). -/
def stripL (l : List Char) : List Char :=
  (rstripL l).dropWhile isWS

/-- Python `str.split(None, 1)`: split on runs of whitespace, at most one
split, no empty fields at the ends. -/
def splitNone1 (l : List Char) : List (List Char) :=
  let l1 := l.dropWhile isWS
  if l1 = [] then []
  else
    let name := l1.takeWhile (fun c => !isWS c)
    let rest := (l1.dropWhile (fun c => !isWS c)).dropWhile isWS
    if rest = [] then [name] else [name, rest]

/-- Errors surfaced by the embedded Python code. -/
inductive PyError where
  | emptyFile
  | indexError
  | typeError
deriving DecidableEq, Repr

/-- Modelled from the spec: the record container (`Bio.SeqRecord.SeqRecord`,
not in the provided source) is "a fixed external record-construction
interface taking (sequence, name, description=optional)"; the description
is optional/absent, not empty string.  `seq` is the ungapped sequence. -/
structure Record where
  id : List Char
  description : Option (List Char)
  seq : List Char
deriving DecidableEq, Repr

/-- Default record used with `List.getD`. -/
def defaultRec : Record := ⟨[], none, []⟩

/-- An alignment: records (rows) plus the coordinate table, stored as one
list of boundary coordinates per row (the spec's rows-by-breakpoints
matrix). -/
structure FastaAlignment where
  records : List Record
  coordinates : List (List Nat)
deriving DecidableEq, Repr

deriving instance DecidableEq for Except

/-- Header test: Python `line.startswith(">")`. -/
def isHeader : List Char → Bool
  | c :: _ => c = '>'
  | [] => false

/-- Header-line processing from `AlignmentIterator.parse`: the content after
the marker is rstripped and split with `split(None, 1)`; unpacking into
name and description raises `ValueError` on a single field (caught, giving
an absent description), and `parts[0]` raises `IndexError` on no field. -/
def parseHeader (content : List Char) : Except PyError (List Char × Option (List Char)) :=
  match splitNone1 (rstripL content) with
  | [] => .error .indexError
  | [n] => .ok (n, none)
  | n :: d :: _ => .ok (n, some d)

/-- The line loop of `AlignmentIterator.parse`, accumulating the three
parallel lists `names`, `descriptions`, `lines` (the gapped buffers).  The
accumulators are kept most-recent-first, so the Python `lines[-1] += ...`
update acts on the head; the results are reversed on completion.  A
non-header line with no current record is Python's `lines[-1]` on an empty
list: `IndexError`. -/
def scan : List (List Char) → List (List Char) → List (Option (List Char)) →
    List (List Char) →
    Except PyError (List (List Char) × List (Option (List Char)) × List (List Char))
  | [], ns, ds, bs => .ok (ns.reverse, ds.reverse, bs.reverse)
  | line :: rest, ns, ds, bs =>
    if isHeader line then
      match parseHeader (line.drop 1) with
      | .error e => .error e
      | .ok (n, d) => scan rest (n :: ns) (d :: ds) ([] :: bs)
    else
      match bs with
      | [] => .error .indexError
      | b :: bs => scan rest ns ds ((b ++ stripL line) :: bs)

/-- Python `line.replace("-", "")`: delete every gap character. -/
def removeGaps (l : List Char) : List Char :=
  l.filter (fun c => c ≠ '-')

/-- Largest row length, used as the column count of the gapped buffers (the
spec assumes all gapped buffers have equal length). -/
def maxLen (rows : List (List Char)) : Nat :=
  rows.foldr (fun r m => max r.length m) 0

/-- Modelled from the spec: the gap/non-gap column patterns of the gapped
buffers (`FastaAlignment.infer_coordinates` walks columns left to right; a
column's pattern records which rows are non-gap there).  Rows exhausted
before the last column count as gapped. -/
def colPatternsAux : Nat → List (List Char) → List (List Bool)
  | 0, _ => []
  | n + 1, rows =>
    rows.map (fun r => decide (r.headD '-' ≠ '-')) ::
      colPatternsAux n (rows.map List.tail)

/-- Column patterns of a list of gapped buffers. -/
def colPatterns (rows : List (List Char)) : List (List Bool) :=
  colPatternsAux (maxLen rows) rows

/-- Advance the per-row ungapped counters across one column: a row's counter
increments exactly when the row is non-gap in that column. -/
def stepCounters (c : List Nat) (p : List Bool) : List Nat :=
  c.zipWith (fun n b => if b then n + 1 else n) p

/-- Modelled from the spec: the column walk of `FastaAlignment.infer_coordinates`
(not in the provided source).  At the first column and at every column whose
gap pattern differs from the previous column's, the current per-row counters
are emitted as a boundary column; after the last column the final counters
close the last block. -/
def inferWalk : List (List Bool) → Option (List Bool) → List Nat → List (List Nat)
  | [], _, c => [c]
  | p :: ps, prev, c =>
    if prev = some p then inferWalk ps (some p) (stepCounters c p)
    else c :: inferWalk ps (some p) (stepCounters c p)

/-- Modelled from the spec: `FastaAlignment.infer_coordinates` (not in the
provided source) turns the gapped buffers into the coordinate table, one
boundary list per row. -/
def infer_coordinates (rows : List (List Char)) : List (List Nat) :=
  let cols := inferWalk (colPatterns rows) none (rows.map (fun _ => 0))
  (List.range rows.length).map (fun i => cols.map (fun c => c.getD i 0))

/-- Python `zip` over the three parallel record lists. -/
def zip3 : List (List Char) → List (Option (List Char)) → List (List Char) →
    List (List Char × Option (List Char) × List Char)
  | n :: ns, d :: ds, b :: bs => (n, d, b) :: zip3 ns ds bs
  | _, _, _ => []

/-- Record construction loop of `AlignmentIterator.parse`: strip the gaps
from each buffer and build the record (description absent when the header
had none). -/
def mkRecords (l : List (List Char × Option (List Char) × List Char)) : List Record :=
  l.map (fun x => ⟨x.1, x.2.1, removeGaps x.2.2⟩)

/-- `AlignmentIterator.parse`: scan the lines, fail with `Empty file.` when
no record was started, infer the coordinates from the gapped buffers, strip
the gaps, and assemble the single alignment. -/
def parse (stream : List (List Char)) : Except PyError FastaAlignment :=
  match scan stream [] [] [] with
  | .error e => .error e
  | .ok (ns, ds, bs) =>
    if bs = [] then .error .emptyFile
    else .ok ⟨mkRecords (zip3 ns ds bs), infer_coordinates bs⟩

/-- C1 input stream. -/
def c1Stream : List (List Char) :=
  [">seq1 first".data, "ACGT".data, ">seq2 second".data, "AC-T".data]

/-- C1 expected alignment. -/
def c1Alignment : FastaAlignment :=
  ⟨[⟨"seq1".data, some "first".data, "ACGT".data⟩,
    ⟨"seq2".data, some "second".data, "ACT".data⟩],
   [[0, 2, 3, 4], [0, 2, 2, 3]]⟩

/-- C1: parsing the four-line input yields exactly one alignment with
records (seq1, "first", ACGT) and (seq2, "second", ACT) and coordinate rows
[0,2,3,4] and [0,2,2,3]. -/
theorem c1_scenario_a : parse c1Stream = .ok c1Alignment := by decide

/-- C9: a stream whose first line is not a header fails with `IndexError`
(from `lines[-1]` on the empty list), not with the `Empty file.` error. -/
theorem c9_leading_sequence_line (l : List Char) (rest : List (List Char))
    (h : isHeader l = false) :
    parse (l :: rest) = .error .indexError ∧ PyError.indexError ≠ PyError.emptyFile := by
  refine ⟨?_, by decide⟩
  simp [parse, scan, h]

/-- C9 witness: the concrete stream whose only line is `ACGT`. -/
theorem c9_witness :
    parse ["ACGT".data] = .error .indexError ∧ PyError.indexError ≠ PyError.emptyFile :=
  c9_leading_sequence_line "ACGT".data [] (by decide)

/-- Modelled from the spec: the rendering of the record's optional
description inside the writer's f-string; an absent description renders as
the empty string (the spec's description is optional/absent, with no
default text). -/
def descStr : Option (List Char) → List Char
  | none => []
  | some s => s

/-- Step of one coordinate row across block `k` (the row's ungapped advance
over that block). -/
def stepAt (row : List Nat) (k : Nat) : Nat :=
  row.getD (k + 1) 0 - row.getD k 0

/-- Number of blocks of a coordinate table (boundary count minus one). -/
def blockCount (coords : List (List Nat)) : Nat :=
  (coords.headD []).length - 1

/-- Modelled from the spec: the column width of each block, the advance of
the block's non-flat rows (taken as the maximum advance over all rows). -/
def blockWidths (coords : List (List Nat)) : List Nat :=
  (List.range (blockCount coords)).map
    (fun k => coords.foldr (fun row m => max (stepAt row k) m) 0)

/-- Gap pattern of each block: which rows advance (true) and which stay
flat (false) over the block. -/
def stepPatterns (coords : List (List Nat)) : List (List Bool) :=
  (List.range (blockCount coords)).map
    (fun k => coords.map (fun row => decide (stepAt row k ≠ 0)))

/-- Modelled from the spec: reconstruction of one gapped row (the iteration
of `Bio.Align.Alignment`, not in the provided source).  Walk the row's
boundary pairs: where start and end differ emit the ungapped substring, where
they are equal emit a run of gaps of the block's column width. -/
def gappedRow (seq : List Char) : List Nat → List Nat → List Char
  | a :: b :: rest, w :: ws =>
    (if a = b then List.replicate w '-' else (seq.drop a).take (b - a)) ++
      gappedRow seq (b :: rest) ws
  | _, _ => []

/-- The gapped text lines of an alignment, one per coordinate row. -/
def reconstructRows (A : FastaAlignment) : List (List Char) :=
  (A.records.zip A.coordinates).map
    (fun p => gappedRow p.1.seq p.2 (blockWidths A.coordinates))

/-- The two output lines per row of `AlignmentWriter.format_alignment`: the
header `>` + id + space + description, then the gapped line. -/
def interleavePairs : List (Record × List Char) → List (List Char)
  | [] => []
  | (r, line) :: rest =>
    ('>' :: r.id ++ ' ' :: descStr r.description) :: line :: interleavePairs rest

/-- All output lines of `AlignmentWriter.format_alignment` (the Python
`zip(alignment.sequences, alignment)` pairs records with reconstructed
gapped lines, truncating to the shorter). -/
def formatLines (A : FastaAlignment) : List (List Char) :=
  interleavePairs (A.records.zip (reconstructRows A))

/-- Join output lines with newlines: Python `"\n".join(lines)`. -/
def joinLines : List (List Char) → List Char
  | [] => []
  | [l] => l
  | l :: rest => l ++ '\n' :: joinLines rest

/-- `AlignmentWriter.format_alignment` on an actual alignment object. -/
def format_alignment (alignment : FastaAlignment) : String :=
  ⟨joinLines (formatLines alignment)⟩

/-- A Python value handed to the writer: an `Alignment` object or any other
object (the dynamic `isinstance` check only distinguishes these). -/
inductive PyValue where
  | alignment (a : FastaAlignment)
  | pyStr (s : List Char)
  | pyInt (n : Int)
  | pyNone
deriving DecidableEq

/-- `AlignmentWriter.format_alignment` including its `isinstance` guard: a
non-alignment raises `TypeError` before any text is produced. -/
def format_alignment_dyn : PyValue → Except PyError String
  | .alignment a => .ok (format_alignment a)
  | _ => .error .typeError

/-- Splitting written text back into lines at newline characters (the
line-oriented stream collaborator feeding `AlignmentIterator.parse`). -/
def splitNl : List Char → List (List Char)
  | [] => [[]]
  | c :: rest =>
    if c = '\n' then [] :: splitNl rest
    else
      match splitNl rest with
      | [] => [[c]]
      | g :: gs => (c :: g) :: gs

/-- Parsing a whole text: split into lines, then `AlignmentIterator.parse`. -/
def parseText (s : String) : Except PyError FastaAlignment :=
  parse (splitNl s.data)

/-- A small alignment used to instantiate universally quantified theorems. -/
def simpleAlignment : FastaAlignment :=
  ⟨[⟨"a".data, none, "AC".data⟩], [[0, 2]]⟩

/-- A one-record alignment whose record has no description. -/
def c2Alignment : FastaAlignment :=
  ⟨[⟨"seq1".data, none, "ACGT".data⟩], [[0, 4]]⟩

/-- Header line at position `2 * i` of the writer output. -/
lemma interleavePairs_getD (l : List (Record × List Char)) :
    ∀ i, i < l.length →
      (interleavePairs l).getD (2 * i) [] =
        '>' :: (l.getD i (defaultRec, [])).1.id ++ ' ' ::
          descStr (l.getD i (defaultRec, [])).1.description := by
  induction l with
  | nil => intro i h; simp at h
  | cons hd tl ih =>
    intro i h
    cases i with
    | zero => simp [interleavePairs]
    | succ n =>
      have h2 : 2 * (n + 1) = 2 * n + 1 + 1 := by ring
      rw [h2]
      cases hd with
      | mk r line =>
        simp only [interleavePairs, List.getD_cons_succ]
        exact ih n (by simpa using h)

/-- C2 fails on the code: the record `seq1` has no description, yet the
emitted header line is `>seq1 ` (a trailing space after the id), not
`>seq1`. -/
theorem c2_counterexample :
    (c2Alignment.records.getD 0 defaultRec).description = none ∧
      (formatLines c2Alignment).getD 0 [] = ">seq1 ".data ∧
      ">seq1 ".data ≠ ">seq1".data := by
  decide

/-- C2 amended: for every emitted row the header line is `>` + id + space +
description text, so the space after the id is always present; when the
description is absent the header is `>` + id + a trailing space. -/
theorem c2_amended (A : FastaAlignment) (i : Nat)
    (h : i < (A.records.zip (reconstructRows A)).length) :
    (formatLines A).getD (2 * i) [] =
        '>' :: ((A.records.zip (reconstructRows A)).getD i (defaultRec, [])).1.id ++ ' ' ::
          descStr ((A.records.zip (reconstructRows A)).getD i (defaultRec, [])).1.description ∧
      (((A.records.zip (reconstructRows A)).getD i (defaultRec, [])).1.description = none →
        (formatLines A).getD (2 * i) [] =
          '>' :: ((A.records.zip (reconstructRows A)).getD i (defaultRec, [])).1.id ++ [' ']) := by
  refine ⟨interleavePairs_getD _ i h, fun hd => ?_⟩
  have h1 := interleavePairs_getD (A.records.zip (reconstructRows A)) i h
  rw [hd] at h1
  simpa [formatLines, descStr] using h1

/-- C2 amended witness at the one-record alignment with absent
description. -/
theorem c2_amended_witness :
    0 < (simpleAlignment.records.zip (reconstructRows simpleAlignment)).length ∧
      (formatLines simpleAlignment).getD (2 * 0) [] =
        '>' :: ((simpleAlignment.records.zip
            (reconstructRows simpleAlignment)).getD 0 (defaultRec, [])).1.id ++ ' ' ::
          descStr ((simpleAlignment.records.zip
            (reconstructRows simpleAlignment)).getD 0 (defaultRec, [])).1.description :=
  ⟨by decide, (c2_amended simpleAlignment 0 (by decide)).1⟩

/-- C4: the writer raises `TypeError` on every non-alignment input and
produces no text; on an alignment object it never raises that error. -/
theorem c4_type_error :
    (∀ v : PyValue, (∀ a, v ≠ .alignment a) → format_alignment_dyn v = .error .typeError) ∧
      ∀ a : FastaAlignment, format_alignment_dyn (.alignment a) ≠ .error .typeError := by
  constructor
  · intro v hv
    cases v with
    | alignment a => exact absurd rfl (hv a)
    | pyStr s => rfl
    | pyInt n => rfl
    | pyNone => rfl
  · intro a h
    simp [format_alignment_dyn] at h

/-- C4 witness: a string input raises `TypeError`, a concrete alignment does
not. -/
theorem c4_witness :
    format_alignment_dyn (.pyStr "x".data) = .error .typeError ∧
      format_alignment_dyn (.alignment simpleAlignment) ≠ .error .typeError :=
  ⟨c4_type_error.1 (.pyStr "x".data) (fun _ => nofun), c4_type_error.2 simpleAlignment⟩

/-- The first whitespace-delimited token of a line. -/
def firstToken (l : List Char) : List Char :=
  (l.dropWhile isWS).takeWhile (fun c => !isWS c)

/-- What follows the first whitespace-delimited token of a line. -/
def restAfterToken (l : List Char) : List Char :=
  (l.dropWhile isWS).dropWhile (fun c => !isWS c)

/-- The element exposed at the head by `dropWhile` fails the predicate. -/
lemma dropWhile_head_false {α : Type} {p : α → Bool} {l r : List α} {c : α}
    (h : List.dropWhile p l = c :: r) : p c = false := by
  have hne : List.dropWhile p l ≠ [] := by simp [h]
  have h1 := List.head_dropWhile_not p l hne
  have h2 : (List.dropWhile p l).head? = some c := by rw [h]; rfl
  rw [List.head?_eq_head hne, Option.some_inj] at h2
  rw [h2] at h1
  simpa using h1

/-- A line splits into its right-stripped part and a trailing whitespace
run. -/
lemma rstrip_decomp (l : List Char) :
    ∃ t, (∀ c ∈ t, isWS c = true) ∧ rstripL l ++ t = l := by
  refine ⟨(l.reverse.takeWhile isWS).reverse, ?_, ?_⟩
  · intro c hc
    rw [List.mem_reverse] at hc
    exact List.mem_takeWhile_imp hc
  · rw [rstripL, ← List.reverse_append, List.takeWhile_append_dropWhile, List.reverse_reverse]

/-- An all-whitespace run contributes nothing to `takeWhile` on
non-whitespace. -/
lemma takeWhile_nonws_of_ws {t : List Char} (ht : ∀ c ∈ t, isWS c = true) :
    t.takeWhile (fun c => !isWS c) = [] := by
  cases t with
  | nil => rfl
  | cons c cs =>
    have : isWS c = true := ht c (by simp)
    simp [List.takeWhile_cons, this]

/-- An all-whitespace run is untouched by `dropWhile` on non-whitespace. -/
lemma dropWhile_nonws_of_ws {t : List Char} (ht : ∀ c ∈ t, isWS c = true) :
    t.dropWhile (fun c => !isWS c) = t := by
  cases t with
  | nil => rfl
  | cons c cs =>
    have : isWS c = true := ht c (by simp)
    simp [List.dropWhile_cons, this]

/-- Right-stripping does not change the first token. -/
lemma takeWhile_rstrip (l : List Char) :
    (rstripL l).takeWhile (fun c => !isWS c) = l.takeWhile (fun c => !isWS c) := by
  obtain ⟨t, ht, hl⟩ := rstrip_decomp l
  conv_rhs => rw [← hl]
  rw [List.takeWhile_append]
  split
  case isTrue h =>
    rw [takeWhile_nonws_of_ws ht, List.append_nil]
    exact (List.takeWhile_prefix _).eq_of_length h
  case isFalse h => rfl

/-- Right-stripping after dropping the leading whitespace equals dropping
the leading whitespace after right-stripping. -/
lemma strip_comm (l : List Char) :
    (rstripL l).dropWhile isWS = rstripL (l.dropWhile isWS) := by
  have hsplit : l.takeWhile isWS ++ l.dropWhile isWS = l :=
    List.takeWhile_append_dropWhile isWS l
  by_cases hD : l.dropWhile isWS = []
  · have hws : ∀ c ∈ l, isWS c = true := (List.dropWhile_eq_nil_iff).mp hD
    have h1 : rstripL l = [] := by
      rw [rstripL, List.reverse_eq_nil_iff, List.dropWhile_eq_nil_iff]
      intro c hc
      exact hws c (List.mem_reverse.mp hc)
    rw [h1, hD]
    rfl
  · have hhead : isWS ((l.dropWhile isWS).head hD) = false := by
      have := List.head_dropWhile_not isWS l hD
      simpa using this
    have hnotall : ¬ ∀ c ∈ l.dropWhile isWS, isWS c = true := by
      intro hall
      have := hall _ (List.head_mem hD)
      rw [hhead] at this
      exact Bool.false_ne_true this
    have hDrev : (l.dropWhile isWS).reverse.dropWhile isWS ≠ [] := by
      rw [Ne, List.dropWhile_eq_nil_iff]
      intro hall
      exact hnotall (fun c hc => hall c (List.mem_reverse.mpr hc))
    have step1 : rstripL l = l.takeWhile isWS ++ rstripL (l.dropWhile isWS) := by
      rw [rstripL]
      conv_lhs => rw [← hsplit]
      rw [List.reverse_append, List.dropWhile_append]
      rw [if_neg (by simpa [List.isEmpty_iff] using hDrev)]
      rw [List.reverse_append, List.reverse_reverse, rstripL]
    have hws_take : ∀ c ∈ l.takeWhile isWS, isWS c = true :=
      fun c hc => List.mem_takeWhile_imp hc
    rw [step1, List.dropWhile_append_of_pos hws_take]
    have hDr : rstripL (l.dropWhile isWS) ≠ [] := by
      rw [rstripL, Ne, List.reverse_eq_nil_iff]
      exact hDrev
    obtain ⟨c, cs, hcs⟩ := List.exists_cons_of_ne_nil hDr
    have hpre : rstripL (l.dropWhile isWS) <+: l.dropWhile isWS := List.rdropWhile_prefix isWS _
    have hc_head : isWS c = false := by
      obtain ⟨t, ht⟩ := hpre
      rw [hcs] at ht
      exact dropWhile_head_false (l := l) (r := cs ++ t) ht.symm
    rw [hcs, List.dropWhile_cons, hc_head]
    simp

/-- C6: for every header line whose content yields a record, the name is the
first whitespace-delimited token of the content, it is nonempty, the
description is absent exactly when only whitespace follows that token, and
otherwise the description is the remainder of the (stripped) content after
the token and the separating whitespace run. -/
theorem c6_header_fields (content n : List Char) (d : Option (List Char))
    (h : parseHeader content = .ok (n, d)) :
    n = firstToken content ∧ n ≠ [] ∧
      (d = none ↔ ∀ c ∈ restAfterToken content, isWS c = true) ∧
      ∀ s, d = some s → s ≠ [] ∧ isWS (s.headD ' ') = false ∧
        ∃ w, w ≠ [] ∧ (∀ c ∈ w, isWS c = true) ∧ stripL content = n ++ w ++ s := by
  by_cases h1 : (rstripL content).dropWhile isWS = []
  · exfalso
    simp [parseHeader, splitNone1, h1] at h
  · have hl1R : (rstripL content).dropWhile isWS = rstripL (content.dropWhile isWS) :=
      strip_comm content
    obtain ⟨t, ht, htD⟩ := rstrip_decomp (content.dropWhile isWS)
    have hD : (rstripL content).dropWhile isWS ++ t = content.dropWhile isWS := by
      rw [hl1R]; exact htD
    have hname : ((rstripL content).dropWhile isWS).takeWhile (fun c => !isWS c) =
        firstToken content := by
      rw [hl1R, takeWhile_rstrip]
      rfl
    have hne_tok : ((rstripL content).dropWhile isWS).takeWhile (fun c => !isWS c) ≠ [] := by
      obtain ⟨c, cs, hcs⟩ := List.exists_cons_of_ne_nil h1
      have hc : isWS c = false := dropWhile_head_false hcs
      rw [hcs, List.takeWhile_cons]
      simp [hc]
    have hrest_decomp : restAfterToken content =
        if (((rstripL content).dropWhile isWS).dropWhile (fun c => !isWS c)).isEmpty
        then t
        else ((rstripL content).dropWhile isWS).dropWhile (fun c => !isWS c) ++ t := by
      have : restAfterToken content =
          (((rstripL content).dropWhile isWS) ++ t).dropWhile (fun c => !isWS c) := by
        rw [hD]; rfl
      rw [this, List.dropWhile_append]
      split
      · exact dropWhile_nonws_of_ws ht
      · rfl
    by_cases h2 : (((rstripL content).dropWhile isWS).dropWhile
        (fun c => !isWS c)).dropWhile isWS = []
    · simp [parseHeader, splitNone1, h1, h2] at h
      obtain ⟨hn, hd⟩ := h
      subst hn hd
      have hXws : ∀ c ∈ ((rstripL content).dropWhile isWS).dropWhile (fun c => !isWS c),
          isWS c = true := List.dropWhile_eq_nil_iff.mp h2
      refine ⟨hname, hne_tok, ?_, ?_⟩
      · refine ⟨fun _ => ?_, fun _ => rfl⟩
        rw [hrest_decomp]
        split
        · exact ht
        · intro c hc
          rcases List.mem_append.mp hc with hc1 | hc2
          · exact hXws c hc1
          · exact ht c hc2
      · intro s hs
        exact absurd hs (by simp)
    · simp [parseHeader, splitNone1, h1, h2] at h
      obtain ⟨hn, hd⟩ := h
      subst hn hd
      have hXne : ((rstripL content).dropWhile isWS).dropWhile (fun c => !isWS c) ≠ [] := by
        intro hX
        rw [hX] at h2
        exact h2 rfl
      refine ⟨hname, hne_tok, ?_, ?_⟩
      · constructor
        · intro hcontra
          exact absurd hcontra (by simp)
        · intro hall
          exfalso
          rw [hrest_decomp, if_neg (by simpa [List.isEmpty_iff] using hXne)] at hall
          have hXws : ∀ c ∈ ((rstripL content).dropWhile isWS).dropWhile (fun c => !isWS c),
              isWS c = true := fun c hc => hall c (List.mem_append.mpr (Or.inl hc))
          exact h2 (List.dropWhile_eq_nil_iff.mpr hXws)
      · intro s hs
        rw [Option.some_inj] at hs
        subst hs
        refine ⟨h2, ?_, ?_⟩
        · obtain ⟨c, cs, hcs⟩ := List.exists_cons_of_ne_nil h2
          have hc : isWS c = false := dropWhile_head_false hcs
          rw [hcs]
          exact hc
        · refine ⟨(((rstripL content).dropWhile isWS).dropWhile
              (fun c => !isWS c)).takeWhile isWS, ?_, ?_, ?_⟩
          · obtain ⟨c, cs, hcs⟩ := List.exists_cons_of_ne_nil hXne
            have hc : (fun c => !isWS c) c = false :=
              dropWhile_head_false (p := fun c => !isWS c) hcs
            have hc2 : isWS c = true := by simpa using hc
            rw [hcs, List.takeWhile_cons]
            simp [hc2]
          · intro c hc
            exact List.mem_takeWhile_imp hc
          · have e1 : stripL content = (rstripL content).dropWhile isWS := rfl
            rw [e1]
            conv_lhs => rw [← List.takeWhile_append_dropWhile (fun c => !isWS c)
              ((rstripL content).dropWhile isWS)]
            conv_lhs => rw [← List.takeWhile_append_dropWhile isWS
              (((rstripL content).dropWhile isWS).dropWhile (fun c => !isWS c))]
            rw [List.append_assoc]

/-- C6 witness at the header content `seq1  first second`. -/
theorem c6_witness :
    "seq1".data = firstToken "seq1  first second".data ∧ "seq1".data ≠ [] ∧
      ((some "first second".data : Option (List Char)) = none ↔
        ∀ c ∈ restAfterToken "seq1  first second".data, isWS c = true) ∧
      ∀ s, (some "first second".data : Option (List Char)) = some s → s ≠ [] ∧
        isWS (s.headD ' ') = false ∧
        ∃ w, w ≠ [] ∧ (∀ c ∈ w, isWS c = true) ∧
          stripL "seq1  first second".data = "seq1".data ++ w ++ s :=
  c6_header_fields "seq1  first second".data "seq1".data (some "first second".data) (by decide)

/-- Length bound for `dropWhile`. -/
lemma length_dropWhile_le' {α : Type} (p : α → Bool) (l : List α) :
    (l.dropWhile p).length ≤ l.length :=
  List.Sublist.length_le (List.IsSuffix.sublist (List.dropWhile_suffix p))

/-- In-bounds `getD` is `getElem`. -/
lemma getD_of_lt {α : Type} (l : List α) (n : Nat) (d : α) (h : n < l.length) :
    l.getD n d = l[n] := by
  simp [List.getD_eq_getElem?_getD, List.getElem?_eq_getElem h]

/-- In-bounds `getD` through `map`. -/
lemma getD_map_of_lt {α β : Type} (f : α → β) (l : List α) (n : Nat) (d : β) (d' : α)
    (h : n < l.length) : (l.map f).getD n d = f (l.getD n d') := by
  rw [getD_of_lt _ _ _ (by simpa using h), getD_of_lt _ _ _ h, List.getElem_map]

/-- Fuel-driven grouping of the stream into the body lines under each
header (lines before the first header are skipped, matching the fact that
`parse` can only succeed when there are none). -/
def gatherBodiesF : Nat → List (List Char) → List (List (List Char))
  | 0, _ => []
  | fuel + 1, stream =>
    match stream with
    | [] => []
    | l :: rest =>
      if isHeader l then
        rest.takeWhile (fun x => !isHeader x) ::
          gatherBodiesF fuel (rest.dropWhile (fun x => !isHeader x))
      else gatherBodiesF fuel rest

/-- The body lines under each header of the stream, in order. -/
def gatherBodies (stream : List (List Char)) : List (List (List Char)) :=
  gatherBodiesF stream.length stream

/-- The gapped buffer of each record: the concatenation of the body lines
under its header, each stripped of leading and trailing whitespace. -/
def gatherBufs (stream : List (List Char)) : List (List Char) :=
  (gatherBodies stream).map (fun body => (body.map stripL).flatten)

/-- Claim-side definition following the spec's words for C7: the buffer as
the concatenation of the body lines with only line-terminal (trailing)
whitespace removed from each line. -/
def gatherBufsRstripOnly (stream : List (List Char)) : List (List Char) :=
  (gatherBodies stream).map (fun body => (body.map rstripL).flatten)

/-- The name produced by each header line of the stream, in order. -/
def headerNames (stream : List (List Char)) : List (List Char) :=
  stream.filterMap
    (fun l => if isHeader l then (parseHeader (l.drop 1)).toOption.map Prod.fst else none)

/-- The description produced by each header line of the stream, in order. -/
def headerDescs (stream : List (List Char)) : List (Option (List Char)) :=
  stream.filterMap
    (fun l => if isHeader l then (parseHeader (l.drop 1)).toOption.map Prod.snd else none)

/-- `gatherBodiesF` ignores its fuel once the fuel covers the stream. -/
lemma gatherBodiesF_irrel : ∀ (f1 f2 : Nat) (stream : List (List Char)),
    stream.length ≤ f1 → stream.length ≤ f2 →
    gatherBodiesF f1 stream = gatherBodiesF f2 stream := by
  intro f1
  induction f1 with
  | zero =>
    intro f2 stream h1 _
    have hs : stream = [] := List.length_eq_zero.mp (Nat.le_zero.mp h1)
    subst hs
    cases f2 <;> rfl
  | succ g ih =>
    intro f2 stream h1 h2
    cases stream with
    | nil => cases f2 <;> rfl
    | cons l rest =>
      cases f2 with
      | zero => simp at h2
      | succ g2 =>
        simp only [gatherBodiesF]
        by_cases hl : isHeader l
        · rw [if_pos hl, if_pos hl]
          have hlen : rest.length ≤ g := by simp at h1; omega
          have hlen2 : rest.length ≤ g2 := by simp at h2; omega
          rw [ih g2 _ (le_trans (length_dropWhile_le' _ _) hlen)
            (le_trans (length_dropWhile_le' _ _) hlen2)]
        · rw [if_neg hl, if_neg hl]
          exact ih g2 rest (by simp at h1; omega) (by simp at h2; omega)

/-- Unfolding `gatherBodies` at a header line. -/
lemma gatherBodies_cons_header {l : List Char} {rest : List (List Char)}
    (hl : isHeader l = true) :
    gatherBodies (l :: rest) = rest.takeWhile (fun x => !isHeader x) ::
      gatherBodies (rest.dropWhile (fun x => !isHeader x)) := by
  show gatherBodiesF (l :: rest).length (l :: rest) = _
  rw [List.length_cons]
  simp only [gatherBodiesF, if_pos hl]
  congr 1
  exact gatherBodiesF_irrel _ _ _ (le_trans (length_dropWhile_le' _ _) (le_refl _))
    (le_refl _)

/-- Unfolding `gatherBodies` at a non-header line. -/
lemma gatherBodies_cons_nonheader {l : List Char} {rest : List (List Char)}
    (hl : isHeader l = false) :
    gatherBodies (l :: rest) = gatherBodies rest := by
  show gatherBodiesF (l :: rest).length (l :: rest) = _
  rw [List.length_cons]
  simp only [gatherBodiesF, hl]
  rfl

/-- Unfolding lemma for one `scan` step. -/
lemma scan_cons (line : List Char) (rest : List (List Char)) (ns : List (List Char))
    (ds : List (Option (List Char))) (bs : List (List Char)) :
    scan (line :: rest) ns ds bs =
      if isHeader line then
        match parseHeader (line.drop 1) with
        | .error e => .error e
        | .ok (n, d) => scan rest (n :: ns) (d :: ds) ([] :: bs)
      else
        match bs with
        | [] => .error .indexError
        | b :: bs2 => scan rest ns ds ((b ++ stripL line) :: bs2) := rfl

/-- Consuming a run of non-header lines appends their stripped text to the
current buffer. -/
lemma scan_body (body : List (List Char)) (hb : ∀ l ∈ body, isHeader l = false) :
    ∀ (rest : List (List Char)) ns ds b bs,
      scan (body ++ rest) ns ds (b :: bs) =
        scan rest ns ds ((b ++ (body.map stripL).flatten) :: bs) := by
  induction body with
  | nil => intro rest ns ds b bs; simp
  | cons l body ih =>
    intro rest ns ds b bs
    have hl : isHeader l = false := hb l (by simp)
    simp only [List.cons_append, scan_cons, hl, Bool.false_eq_true, if_false]
    rw [ih (fun x hx => hb x (by simp [hx])) rest ns ds (b ++ stripL l) bs]
    rw [List.map_cons, List.flatten_cons, List.append_assoc]

/-- Non-header lines contribute no header names. -/
lemma headerNames_append_nonheader (body rest : List (List Char))
    (hb : ∀ l ∈ body, isHeader l = false) :
    headerNames (body ++ rest) = headerNames rest := by
  unfold headerNames
  rw [List.filterMap_append]
  have : body.filterMap
      (fun l => if isHeader l then (parseHeader (l.drop 1)).toOption.map Prod.fst
        else none) = [] := by
    rw [List.filterMap_eq_nil_iff]
    intro a ha
    rw [hb a ha]
    simp
  rw [this, List.nil_append]

/-- Non-header lines contribute no header descriptions. -/
lemma headerDescs_append_nonheader (body rest : List (List Char))
    (hb : ∀ l ∈ body, isHeader l = false) :
    headerDescs (body ++ rest) = headerDescs rest := by
  unfold headerDescs
  rw [List.filterMap_append]
  have : body.filterMap
      (fun l => if isHeader l then (parseHeader (l.drop 1)).toOption.map Prod.snd
        else none) = [] := by
    rw [List.filterMap_eq_nil_iff]
    intro a ha
    rw [hb a ha]
    simp
  rw [this, List.nil_append]

/-- Characterization of a successful scan starting at a record boundary
(empty stream or a header line): the three result lists are the header
names, the header descriptions, and the per-record stripped-and-joined
buffers. -/
theorem scan_at_boundary : ∀ (stream : List (List Char)) ns ds bs N D B,
    (stream = [] ∨ isHeader (stream.headD []) = true) →
    scan stream ns ds bs = .ok (N, D, B) →
    N = ns.reverse ++ headerNames stream ∧ D = ds.reverse ++ headerDescs stream ∧
      B = bs.reverse ++ gatherBufs stream
  | [], ns, ds, bs, N, D, B, _, h => by
    simp only [scan, Except.ok.injEq, Prod.mk.injEq] at h
    obtain ⟨h1, h2, h3⟩ := h
    refine ⟨?_, ?_, ?_⟩
    · rw [← h1, headerNames]; simp
    · rw [← h2, headerDescs]; simp
    · rw [← h3]; simp [gatherBufs, gatherBodies, gatherBodiesF]
  | l :: rest, ns, ds, bs, N, D, B, hb, h => by
    have hl : isHeader l = true := by
      rcases hb with h' | h'
      · exact absurd h' (by simp)
      · simpa using h'
    rw [scan_cons, if_pos hl] at h
    cases hph : parseHeader (l.drop 1) with
    | error e => rw [hph] at h; simp at h
    | ok nd =>
      obtain ⟨n, d⟩ := nd
      rw [hph] at h
      simp only at h
      have hsplit : rest.takeWhile (fun x => !isHeader x) ++
          rest.dropWhile (fun x => !isHeader x) = rest :=
        List.takeWhile_append_dropWhile _ _
      have hbody : ∀ x ∈ rest.takeWhile (fun x => !isHeader x), isHeader x = false :=
        fun x hx => by simpa using List.mem_takeWhile_imp hx
      rw [← hsplit, scan_body _ hbody] at h
      have hb' : rest.dropWhile (fun x => !isHeader x) = [] ∨
          isHeader ((rest.dropWhile (fun x => !isHeader x)).headD []) = true := by
        cases hr : rest.dropWhile (fun x => !isHeader x) with
        | nil => exact Or.inl rfl
        | cons y ys =>
          right
          have := dropWhile_head_false (p := fun x => !isHeader x) hr
          simpa using this
      obtain ⟨hN, hD, hB⟩ := scan_at_boundary (rest.dropWhile (fun x => !isHeader x))
        (n :: ns) (d :: ds)
        ((([] : List Char) ++ ((rest.takeWhile (fun x => !isHeader x)).map stripL).flatten)
          :: bs) N D B hb' h
      have hph2 : parseHeader l.tail = .ok (n, d) := by
        rw [← List.drop_one]; exact hph
      have e1 : headerNames (l :: rest) =
          n :: headerNames (rest.dropWhile (fun x => !isHeader x)) := by
        have : headerNames (l :: rest) = n :: headerNames rest := by
          unfold headerNames
          rw [List.filterMap_cons]
          simp [hl, hph2, Except.toOption]
        rw [this]
        conv_lhs => rw [← hsplit]
        rw [headerNames_append_nonheader _ _ hbody]
      have e2 : headerDescs (l :: rest) =
          d :: headerDescs (rest.dropWhile (fun x => !isHeader x)) := by
        have : headerDescs (l :: rest) = d :: headerDescs rest := by
          unfold headerDescs
          rw [List.filterMap_cons]
          simp [hl, hph2, Except.toOption]
        rw [this]
        conv_lhs => rw [← hsplit]
        rw [headerDescs_append_nonheader _ _ hbody]
      have e3 : gatherBufs (l :: rest) =
          ((rest.takeWhile (fun x => !isHeader x)).map stripL).flatten ::
            gatherBufs (rest.dropWhile (fun x => !isHeader x)) := by
        rw [gatherBufs, gatherBodies_cons_header hl, List.map_cons]
        rfl
      refine ⟨?_, ?_, ?_⟩
      · rw [hN, e1, List.reverse_cons, List.append_assoc]
        rfl
      · rw [hD, e2, List.reverse_cons, List.append_assoc]
        rfl
      · rw [hB, e3, List.reverse_cons, List.append_assoc]
        simp
termination_by stream => stream.length
decreasing_by
  have := length_dropWhile_le' (fun x => !isHeader x) rest
  simp only [List.length_cons]
  omega

/-- A successful scan from the initial state means the stream was empty or
began with a header line. -/
lemma scan_ok_start {stream : List (List Char)}
    {r : List (List Char) × List (Option (List Char)) × List (List Char)}
    (h : scan stream [] [] [] = .ok r) :
    stream = [] ∨ isHeader (stream.headD []) = true := by
  cases stream with
  | nil => exact Or.inl rfl
  | cons l rest =>
    right
    by_contra hl
    have hl' : isHeader l = false := by
      cases hh : isHeader l
      · rfl
      · exact absurd (by simpa using hh) hl
    rw [scan_cons] at h
    simp [hl'] at h

/-- Every error that `scan` produces is an `IndexError`. -/
lemma scan_error_index : ∀ (stream : List (List Char)) ns ds bs e,
    scan stream ns ds bs = .error e → e = .indexError := by
  intro stream
  induction stream with
  | nil => intro ns ds bs e h; simp [scan] at h
  | cons l rest ih =>
    intro ns ds bs e h
    rw [scan_cons] at h
    by_cases hl : isHeader l
    · rw [if_pos hl] at h
      cases hph : parseHeader (l.drop 1) with
      | error e2 =>
        rw [hph] at h
        simp only [Except.error.injEq] at h
        subst h
        unfold parseHeader at hph
        rcases hsp : splitNone1 (rstripL (l.drop 1)) with _ | ⟨a, _ | ⟨b, t⟩⟩ <;>
          rw [hsp] at hph <;> simp at hph
        exact hph.symm
      | ok nd =>
        obtain ⟨n, d⟩ := nd
        rw [hph] at h
        exact ih _ _ _ _ h
    · rw [if_neg hl] at h
      cases bs with
      | nil =>
        simp only [Except.error.injEq] at h
        exact h.symm
      | cons b bs2 => exact ih _ _ _ _ h

/-- A successful scan preserves the relative lengths of the three
accumulated lists. -/
lemma scan_ok_lengths : ∀ (stream : List (List Char)) ns ds bs N D B,
    scan stream ns ds bs = .ok (N, D, B) →
    ns.length = bs.length → ds.length = bs.length →
    N.length = B.length ∧ D.length = B.length := by
  intro stream
  induction stream with
  | nil =>
    intro ns ds bs N D B h h1 h2
    simp only [scan, Except.ok.injEq, Prod.mk.injEq] at h
    obtain ⟨e1, e2, e3⟩ := h
    subst e1 e2 e3
    simp [h1, h2]
  | cons l rest ih =>
    intro ns ds bs N D B h h1 h2
    rw [scan_cons] at h
    by_cases hl : isHeader l
    · rw [if_pos hl] at h
      cases hph : parseHeader (l.drop 1) with
      | error e2 => rw [hph] at h; simp at h
      | ok nd =>
        obtain ⟨n, d⟩ := nd
        rw [hph] at h
        exact ih _ _ _ _ _ _ h (by simp [h1]) (by simp [h2])
    · rw [if_neg hl] at h
      cases bs with
      | nil => simp at h
      | cons b bs2 =>
        exact ih _ _ _ _ _ _ h (by simpa using h1) (by simpa using h2)

/-- A successful scan never shrinks the buffer list. -/
lemma scan_bs_grow : ∀ (stream : List (List Char)) ns ds bs N D B,
    scan stream ns ds bs = .ok (N, D, B) → bs.length ≤ B.length := by
  intro stream
  induction stream with
  | nil =>
    intro ns ds bs N D B h
    simp only [scan, Except.ok.injEq, Prod.mk.injEq] at h
    obtain ⟨_, _, e3⟩ := h
    subst e3
    simp
  | cons l rest ih =>
    intro ns ds bs N D B h
    rw [scan_cons] at h
    by_cases hl : isHeader l
    · rw [if_pos hl] at h
      cases hph : parseHeader (l.drop 1) with
      | error e2 => rw [hph] at h; simp at h
      | ok nd =>
        obtain ⟨n, d⟩ := nd
        rw [hph] at h
        have := ih _ _ _ _ _ _ h
        simp at this
        omega
    · rw [if_neg hl] at h
      cases bs with
      | nil => simp at h
      | cons b bs2 =>
        have := ih _ _ _ _ _ _ h
        simpa using this

/-- Everything a successful `parse` provides: the scan result, its
characterization, and the assembled alignment. -/
lemma parse_ok_elim {stream : List (List Char)} {A : FastaAlignment}
    (h : parse stream = .ok A) :
    ∃ N D B, scan stream [] [] [] = .ok (N, D, B) ∧ B ≠ [] ∧
      A = ⟨mkRecords (zip3 N D B), infer_coordinates B⟩ ∧
      N = headerNames stream ∧ D = headerDescs stream ∧ B = gatherBufs stream ∧
      N.length = B.length ∧ D.length = B.length := by
  unfold parse at h
  cases hs : scan stream [] [] [] with
  | error e => rw [hs] at h; simp at h
  | ok r =>
    obtain ⟨N, D, B⟩ := r
    rw [hs] at h
    dsimp only at h
    by_cases hB : B = []
    · rw [if_pos hB] at h; simp at h
    · rw [if_neg hB] at h
      simp only [Except.ok.injEq] at h
      obtain ⟨hN, hD, hBe⟩ := scan_at_boundary stream [] [] [] N D B (scan_ok_start hs) hs
      simp only [List.reverse_nil, List.nil_append] at hN hD hBe
      obtain ⟨hlN, hlD⟩ := scan_ok_lengths stream [] [] [] N D B hs rfl rfl
      exact ⟨N, D, B, rfl, hB, h.symm, hN, hD, hBe, hlN, hlD⟩

/-- Length of `zip3` when the three lists have equal lengths. -/
lemma zip3_length : ∀ (N : List (List Char)) (D : List (Option (List Char)))
    (B : List (List Char)), N.length = B.length → D.length = B.length →
    (zip3 N D B).length = B.length := by
  intro N
  induction N with
  | nil =>
    intro D B h1 _
    cases B with
    | nil => cases D <;> rfl
    | cons b bs => simp at h1
  | cons n ns ih =>
    intro D B h1 h2
    cases B with
    | nil => simp at h1
    | cons b bs =>
      cases D with
      | nil => simp at h2
      | cons d ds =>
        simp only [zip3, List.length_cons]
        rw [ih ds bs (by simpa using h1) (by simpa using h2)]

/-- Componentwise `getD` through `zip3`. -/
lemma zip3_getD : ∀ (N : List (List Char)) (D : List (Option (List Char)))
    (B : List (List Char)) (k : Nat), N.length = B.length → D.length = B.length →
    k < B.length →
    (zip3 N D B).getD k ([], none, []) = (N.getD k [], D.getD k none, B.getD k []) := by
  intro N
  induction N with
  | nil =>
    intro D B k h1 _ hk
    rw [← h1] at hk
    simp at hk
  | cons n ns ih =>
    intro D B k h1 h2 hk
    cases B with
    | nil => simp at hk
    | cons b bs =>
      cases D with
      | nil => simp at h2
      | cons d ds =>
        cases k with
        | zero => rfl
        | succ m =>
          simp only [zip3, List.getD_cons_succ]
          exact ih ds bs m (by simpa using h1) (by simpa using h2) (by simpa using hk)

/-- C7 fails on the code: the sequence line ` A` has its *leading* space
removed as well, so the buffer is `A`, not the trailing-whitespace-only
stripped ` A`. -/
theorem c7_counterexample :
    scan [">s".data, " A".data] [] [] [] = .ok (["s".data], [none], ["A".data]) ∧
      gatherBufsRstripOnly [">s".data, " A".data] = [" A".data] ∧
      (["A".data] : List (List Char)) ≠ [" A".data] := by
  refine ⟨by decide, by decide, by decide⟩

/-- C7 amended: the buffer handed to coordinate inference is the
concatenation of the record's body lines with leading *and* trailing
whitespace removed from each line. -/
theorem c7_amended (stream : List (List Char)) (A : FastaAlignment)
    (h : parse stream = .ok A) :
    (∃ N D, scan stream [] [] [] = .ok (N, D, gatherBufs stream)) ∧
      A.coordinates = infer_coordinates (gatherBufs stream) := by
  obtain ⟨N, D, B, hs, hB, hA, hN, hD, hBe, _, _⟩ := parse_ok_elim h
  subst hBe
  exact ⟨⟨N, D, hs⟩, by rw [hA]⟩

/-- C7 amended witness at the Scenario A stream. -/
theorem c7_witness :
    (∃ N D, scan c1Stream [] [] [] = .ok (N, D, gatherBufs c1Stream)) ∧
      c1Alignment.coordinates = infer_coordinates (gatherBufs c1Stream) :=
  c7_amended c1Stream c1Alignment (by decide)

/-- A header line whose content has a token parses successfully. -/
lemma parseHeader_ok_of_token {content : List Char} (h : stripL content ≠ []) :
    ∃ n d, parseHeader content = .ok (n, d) := by
  unfold parseHeader
  rcases hsp : splitNone1 (rstripL content) with _ | ⟨a, _ | ⟨b, t⟩⟩
  · exfalso
    unfold splitNone1 at hsp
    by_cases h1 : (rstripL content).dropWhile isWS = []
    · exact h h1
    · rw [if_neg h1] at hsp
      dsimp only at hsp
      split at hsp <;> simp at hsp
  · exact ⟨a, none, rfl⟩
  · exact ⟨a, some b, rfl⟩

/-- With a current record open and every header line carrying a name token,
the scan cannot fail. -/
lemma scan_no_fail : ∀ (stream : List (List Char)) ns ds b bs,
    (∀ l ∈ stream, isHeader l = true → stripL (l.drop 1) ≠ []) →
    ∃ r, scan stream ns ds (b :: bs) = .ok r := by
  intro stream
  induction stream with
  | nil => intro ns ds b bs _; exact ⟨_, rfl⟩
  | cons l rest ih =>
    intro ns ds b bs h
    rw [scan_cons]
    by_cases hl : isHeader l
    · rw [if_pos hl]
      obtain ⟨n, d, hph⟩ := parseHeader_ok_of_token (h l (by simp) hl)
      rw [hph]
      exact ih (n :: ns) (d :: ds) [] (b :: bs) (fun x hx hh => h x (by simp [hx]) hh)
    · rw [if_neg hl]
      exact ih ns ds (b ++ stripL l) bs (fun x hx hh => h x (by simp [hx]) hh)

/-- C5 fails on the code: the stream `AC` contains zero header lines, yet
`parse` does not raise the `Empty file.` error there (it raises
`IndexError`). -/
theorem c5_counterexample :
    (∀ l ∈ (["AC".data] : List (List Char)), isHeader l = false) ∧
      parse ["AC".data] ≠ .error .emptyFile := by
  refine ⟨by decide, by decide⟩

/-- C5 amended: `parse` raises the `Empty file.` error exactly on the
stream with no lines at all; and whenever the stream begins with a header
line and every header line carries a name token, `parse` yields exactly one
alignment. -/
theorem c5_amended (stream : List (List Char)) :
    (parse stream = .error .emptyFile ↔ stream = []) ∧
      ((∃ l rest, stream = l :: rest ∧ isHeader l = true) ∧
          (∀ l ∈ stream, isHeader l = true → stripL (l.drop 1) ≠ []) →
        ∃ A, parse stream = .ok A) := by
  constructor
  · constructor
    · intro h
      unfold parse at h
      cases hs : scan stream [] [] [] with
      | error e =>
        rw [hs] at h
        simp only [Except.error.injEq] at h
        have he := scan_error_index _ _ _ _ _ hs
        rw [h] at he
        exact absurd he (by decide)
      | ok r =>
        obtain ⟨N, D, B⟩ := r
        rw [hs] at h
        dsimp only at h
        by_cases hB : B = []
        · rcases scan_ok_start hs with hemp | hhead
          · exact hemp
          · exfalso
            cases stream with
            | nil => simp [isHeader] at hhead
            | cons l rest =>
              obtain ⟨_, _, hBe⟩ := scan_at_boundary _ [] [] [] N D B (Or.inr hhead) hs
              rw [hB] at hBe
              have hh : isHeader l = true := by simpa using hhead
              rw [gatherBufs, gatherBodies_cons_header hh] at hBe
              simp at hBe
        · rw [if_neg hB] at h; simp at h
    · intro h
      subst h
      decide
  · rintro ⟨⟨l, rest, hstream, hl⟩, htok⟩
    subst hstream
    obtain ⟨n, d, hph⟩ := parseHeader_ok_of_token (htok l (by simp) hl)
    obtain ⟨r, hr⟩ := scan_no_fail rest [n] [d] [] []
      (fun x hx hh => htok x (by simp [hx]) hh)
    obtain ⟨N, D, B⟩ := r
    have hB : B ≠ [] := by
      have hg := scan_bs_grow rest [n] [d] ([] :: []) N D B hr
      intro hBe
      rw [hBe] at hg
      simp at hg
    refine ⟨⟨mkRecords (zip3 N D B), infer_coordinates B⟩, ?_⟩
    unfold parse
    rw [scan_cons, if_pos hl, hph]
    dsimp only
    rw [hr]
    dsimp only
    rw [if_neg hB]

/-- C5 amended witness: the empty stream raises `Empty file.`; a one-header
stream parses. -/
theorem c5_witness :
    parse ([] : List (List Char)) = .error .emptyFile ∧
      ∃ A, parse [">a b".data] = .ok A :=
  ⟨(c5_amended []).1.mpr rfl,
   (c5_amended [">a b".data]).2 ⟨⟨">a b".data, [], rfl, by decide⟩, by decide⟩⟩

/-- C10: a header immediately followed by another header or the end of the
stream (an empty body) yields a record whose ungapped sequence is empty;
the witness shows this situation parses without error. -/
theorem c10_empty_body (stream : List (List Char)) (A : FastaAlignment) (k : Nat)
    (h : parse stream = .ok A) (hk : k < (gatherBodies stream).length)
    (hbody : (gatherBodies stream).getD k [] = []) :
    (A.records.getD k defaultRec).seq = [] := by
  obtain ⟨N, D, B, hs, hB, hA, hN, hD, hBe, hlN, hlD⟩ := parse_ok_elim h
  have hBlen : B.length = (gatherBodies stream).length := by
    rw [hBe, gatherBufs, List.length_map]
  have hkB : k < B.length := by omega
  have hrec : A.records = mkRecords (zip3 N D B) := by rw [hA]
  rw [hrec]
  unfold mkRecords
  rw [getD_map_of_lt _ _ _ _ ([], none, [])
    (by rw [zip3_length N D B hlN hlD]; exact hkB)]
  rw [zip3_getD N D B k hlN hlD hkB]
  have hBk : B.getD k [] = [] := by
    rw [hBe, gatherBufs, getD_map_of_lt _ _ _ _ [] (by omega)]
    rw [hbody]
    rfl
  rw [hBk]
  rfl

/-- The alignment parsed from two bare headers. -/
def c10Alignment : FastaAlignment :=
  ⟨[⟨"a".data, none, []⟩, ⟨"b".data, none, []⟩], [[0], [0]]⟩

/-- C10 witness: two consecutive headers parse into records with empty
sequences. -/
theorem c10_witness :
    parse [">a".data, ">b".data] = .ok c10Alignment ∧
      (c10Alignment.records.getD 0 defaultRec).seq = [] :=
  ⟨by decide,
   c10_empty_body [">a".data, ">b".data] c10Alignment 0 (by decide) (by decide)
     (by decide)⟩

/-- Out-of-range `getD` yields the default. -/
lemma getD_of_ge {α : Type} (l : List α) (n : Nat) (d : α) (h : l.length ≤ n) :
    l.getD n d = d := by
  simp [List.getD_eq_getElem?_getD, List.getElem?_eq_none h]

/-- Componentwise value of one counter step. -/
lemma stepCounters_getD (c : List Nat) (p : List Bool) (hp : p.length = c.length)
    (i : Nat) (hi : i < c.length) :
    (stepCounters c p).getD i 0 =
      if p.getD i false then c.getD i 0 + 1 else c.getD i 0 := by
  unfold stepCounters
  rw [getD_of_lt _ _ _ (by rw [List.length_zipWith]; omega)]
  rw [List.getElem_zipWith]
  rw [getD_of_lt _ _ _ hi, getD_of_lt _ _ _ (by omega)]

/-- Counters never decrease across a step. -/
lemma stepCounters_getD_ge (c : List Nat) (p : List Bool) (hp : p.length = c.length)
    (i : Nat) : c.getD i 0 ≤ (stepCounters c p).getD i 0 := by
  by_cases hi : i < c.length
  · rw [stepCounters_getD c p hp i hi]
    split <;> omega
  · rw [getD_of_ge _ _ _ (by omega)]
    exact Nat.zero_le _

/-- A step preserves the counter-list length when the pattern matches. -/
lemma stepCounters_length (c : List Nat) (p : List Bool) (hp : p.length = c.length) :
    (stepCounters c p).length = c.length := by
  unfold stepCounters
  rw [List.length_zipWith]
  omega

/-- The column walk never returns an empty list. -/
lemma inferWalk_ne_nil : ∀ (ps : List (List Bool)) prev c, inferWalk ps prev c ≠ [] := by
  intro ps
  induction ps with
  | nil => intro prev c; simp [inferWalk]
  | cons p ps ih =>
    intro prev c
    unfold inferWalk
    by_cases hprev : prev = some p
    · rw [if_pos hprev]; exact ih _ _
    · rw [if_neg hprev]; simp

/-- Along the walk, every emitted boundary column dominates the current
counters, and each row's entries are non-decreasing. -/
lemma inferWalk_mono : ∀ (ps : List (List Bool)) (prev : Option (List Bool)) (c : List Nat),
    (∀ p ∈ ps, p.length = c.length) → ∀ i,
    List.Chain' (· ≤ ·) ((inferWalk ps prev c).map (fun col => col.getD i 0)) ∧
      ∀ col ∈ inferWalk ps prev c, c.getD i 0 ≤ col.getD i 0 := by
  intro ps
  induction ps with
  | nil =>
    intro prev c _ i
    refine ⟨by simp [inferWalk], ?_⟩
    intro col hcol
    simp [inferWalk] at hcol
    subst hcol
    exact le_refl _
  | cons p ps ih =>
    intro prev c hp i
    have hlen : p.length = c.length := hp p (by simp)
    have hstep_len : ∀ q ∈ ps, q.length = (stepCounters c p).length := by
      intro q hq
      rw [stepCounters_length c p hlen]
      exact hp q (by simp [hq])
    have hge : c.getD i 0 ≤ (stepCounters c p).getD i 0 := stepCounters_getD_ge c p hlen i
    obtain ⟨ihc, ihge⟩ := ih (some p) (stepCounters c p) hstep_len i
    unfold inferWalk
    by_cases hprev : prev = some p
    · rw [if_pos hprev]
      exact ⟨ihc, fun col hcol => le_trans hge (ihge col hcol)⟩
    · rw [if_neg hprev]
      constructor
      · rw [List.map_cons]
        refine List.chain'_cons'.mpr ⟨?_, ihc⟩
        intro b hb
        have hx : ∃ col ∈ inferWalk ps (some p) (stepCounters c p), col.getD i 0 = b := by
          cases hw : inferWalk ps (some p) (stepCounters c p) with
          | nil => exact absurd hw (inferWalk_ne_nil _ _ _)
          | cons x xs =>
            rw [hw] at hb
            simp only [List.map_cons, List.head?_cons, Option.mem_def,
              Option.some_inj] at hb
            exact ⟨x, by simp [hw], hb⟩
        obtain ⟨col, hcolmem, hcolb⟩ := hx
        rw [← hcolb]
        exact le_trans hge (ihge col hcolmem)
      · intro col hcol
        rcases List.mem_cons.mp hcol with hc1 | hc2
        · subst hc1; exact le_refl _
        · exact le_trans hge (ihge col hc2)

/-- The last boundary column is the fold of all counter steps. -/
lemma inferWalk_getLast : ∀ (ps : List (List Bool)) prev c,
    (inferWalk ps prev c).getLast? = some (ps.foldl stepCounters c) := by
  intro ps
  induction ps with
  | nil => intro prev c; rfl
  | cons p ps ih =>
    intro prev c
    unfold inferWalk
    by_cases hprev : prev = some p
    · rw [if_pos hprev, ih]
      rfl
    · rw [if_neg hprev]
      cases hw : inferWalk ps (some p) (stepCounters c p) with
      | nil => exact absurd hw (inferWalk_ne_nil _ _ _)
      | cons x xs =>
        rw [List.getLast?_cons_cons, ← hw, ih]
        rfl

/-- Componentwise value of the final counters. -/
lemma foldl_step_getD : ∀ (ps : List (List Bool)) (c : List Nat) (i : Nat),
    (∀ p ∈ ps, p.length = c.length) → i < c.length →
    (ps.foldl stepCounters c).getD i 0 =
      c.getD i 0 + ps.countP (fun p => p.getD i false) := by
  intro ps
  induction ps with
  | nil => intro c i _ _; simp
  | cons p ps ih =>
    intro c i hp hi
    have hlen : p.length = c.length := hp p (by simp)
    have hstep_len : ∀ q ∈ ps, q.length = (stepCounters c p).length := by
      intro q hq
      rw [stepCounters_length c p hlen]
      exact hp q (by simp [hq])
    rw [List.foldl_cons, ih (stepCounters c p) i hstep_len
      (by rw [stepCounters_length c p hlen]; exact hi)]
    rw [stepCounters_getD c p hlen i hi, List.countP_cons]
    by_cases hpi : p.getD i false = true
    · simp only [hpi, if_true]
      omega
    · have hpi2 : p.getD i false = false := by
        cases hx : p.getD i false
        · rfl
        · exact absurd hx hpi
      simp only [hpi2, Bool.false_eq_true, if_false]
      omega

/-- Every column pattern has one entry per row. -/
lemma colPatternsAux_col_len : ∀ (fuel : Nat) (rows : List (List Char)) (p : List Bool),
    p ∈ colPatternsAux fuel rows → p.length = rows.length := by
  intro fuel
  induction fuel with
  | zero => intro rows p hp; simp [colPatternsAux] at hp
  | succ m ih =>
    intro rows p hp
    rw [colPatternsAux] at hp
    rcases List.mem_cons.mp hp with h1 | h2
    · subst h1; simp
    · rw [ih (rows.map List.tail) p h2, List.length_map]

/-- Each row is no longer than the overall maximum. -/
lemma maxLen_ge : ∀ (rows : List (List Char)) (i : Nat), i < rows.length →
    (rows.getD i []).length ≤ maxLen rows := by
  intro rows
  induction rows with
  | nil => intro i hi; simp at hi
  | cons r rs ih =>
    intro i hi
    cases i with
    | zero => simp [maxLen]
    | succ m =>
      have := ih m (by simpa using hi)
      simp only [List.getD_cons_succ]
      calc (rs.getD m []).length ≤ maxLen rs := this
        _ ≤ maxLen (r :: rs) := le_max_right _ _

/-- Counting the non-gap columns of one row through the column patterns. -/
lemma colPatterns_count : ∀ (fuel : Nat) (rows : List (List Char)) (i : Nat),
    i < rows.length → (rows.getD i []).length ≤ fuel →
    (colPatternsAux fuel rows).countP (fun p => p.getD i false) =
      (rows.getD i []).countP (fun c => c ≠ '-') := by
  intro fuel
  induction fuel with
  | zero =>
    intro rows i hi hf
    have : rows.getD i [] = [] := List.length_eq_zero.mp (Nat.le_zero.mp hf)
    rw [this]
    simp [colPatternsAux]
  | succ m ih =>
    intro rows i hi hf
    rw [colPatternsAux, List.countP_cons]
    have hcol : (rows.map (fun r => decide (r.headD '-' ≠ '-'))).getD i false =
        decide ((rows.getD i []).headD '-' ≠ '-') := getD_map_of_lt _ _ _ _ [] hi
    have hmap : ((rows.map List.tail).getD i []) = (rows.getD i []).tail :=
      getD_map_of_lt _ _ _ _ [] hi
    have htail : ((rows.map List.tail).getD i []).length ≤ m := by
      rw [hmap, List.length_tail]
      omega
    have hrec := ih (rows.map List.tail) i (by simpa using hi) htail
    rw [hmap] at hrec
    rw [hrec, hcol]
    cases hrow : rows.getD i [] with
    | nil => simp
    | cons ch rest =>
      simp only [List.headD_cons, List.tail_cons, List.countP_cons]

/-- One row of the inferred coordinate table. -/
lemma infer_row (B : List (List Char)) (i : Nat) (hi : i < B.length) :
    (infer_coordinates B).getD i [] =
      (inferWalk (colPatterns B) none (B.map (fun _ => 0))).map (fun c => c.getD i 0) := by
  unfold infer_coordinates
  rw [getD_map_of_lt _ _ _ _ 0 (by simpa using hi)]
  have hri : (List.range B.length).getD i 0 = i := by
    rw [getD_of_lt _ _ _ (by simpa using hi)]
    apply List.getElem_range
  rw [hri]

/-- C8: in every alignment the parser produces, each coordinate row is
non-decreasing and its last entry equals the length of that row's ungapped
sequence. -/
theorem c8_row_invariants (stream : List (List Char)) (A : FastaAlignment) (i : Nat)
    (h : parse stream = .ok A) (hi : i < A.records.length) :
    List.Chain' (· ≤ ·) (A.coordinates.getD i []) ∧
      (A.coordinates.getD i []).getLast? =
        some (A.records.getD i defaultRec).seq.length := by
  obtain ⟨N, D, B, hs, hB, hA, hN, hD, hBe, hlN, hlD⟩ := parse_ok_elim h
  have hrecB : A.records.length = B.length := by
    rw [hA]
    unfold mkRecords
    rw [List.length_map, zip3_length N D B hlN hlD]
  have hiB : i < B.length := by omega
  have hcoord : A.coordinates = infer_coordinates B := by rw [hA]
  have hps_len : ∀ p ∈ colPatterns B, p.length = (B.map (fun _ => ((0 : Nat)))).length := by
    intro p hp
    rw [List.length_map]
    exact colPatternsAux_col_len (maxLen B) B p hp
  rw [hcoord, infer_row B i hiB]
  constructor
  · exact (inferWalk_mono (colPatterns B) none (B.map (fun _ => 0)) hps_len i).1
  · rw [List.getLast?_map, inferWalk_getLast]
    rw [Option.map_some']
    congr 1
    rw [foldl_step_getD (colPatterns B) (B.map (fun _ => 0)) i hps_len
      (by rw [List.length_map]; exact hiB)]
    rw [getD_map_of_lt _ _ _ _ [] hiB]
    unfold colPatterns
    rw [colPatterns_count (maxLen B) B i hiB (maxLen_ge B i hiB)]
    have hrec : A.records.getD i defaultRec =
        ⟨N.getD i [], D.getD i none, removeGaps (B.getD i [])⟩ := by
      rw [hA]
      unfold mkRecords
      rw [getD_map_of_lt _ _ _ _ ([], none, [])
        (by rw [zip3_length N D B hlN hlD]; exact hiB)]
      rw [zip3_getD N D B i hlN hlD hiB]
    rw [hrec]
    show 0 + (B.getD i []).countP (fun c => c ≠ '-') = (removeGaps (B.getD i [])).length
    rw [Nat.zero_add, removeGaps, ← List.countP_eq_length_filter]

/-- C8 witness at the Scenario A stream. -/
theorem c8_witness :
    List.Chain' (· ≤ ·) (c1Alignment.coordinates.getD 0 []) ∧
      (c1Alignment.coordinates.getD 0 []).getLast? =
        some (c1Alignment.records.getD 0 defaultRec).seq.length :=
  c8_row_invariants c1Stream c1Alignment 0 (by decide) (by decide)

/-- Well-formedness of a record for aligned-FASTA representability: a
nonempty whitespace-free id; a description that is absent or nonempty with
no surrounding whitespace and no newline; a sequence with no whitespace, no
gap character and no header marker. -/
def recordOk (r : Record) : Bool :=
  !r.id.isEmpty && r.id.all (fun c => !isWS c) &&
    (match r.description with
     | none => true
     | some s => !s.isEmpty && !isWS (s.headD ' ') && !isWS (s.getLastD ' ') &&
         s.all (fun c => c ≠ '\n')) &&
    r.seq.all (fun c => !isWS c && c ≠ '-' && c ≠ '>')

/-- Boolean non-decreasing check on adjacent elements. -/
def chainLeB : List Nat → Bool
  | a :: b :: rest => a ≤ b && chainLeB (b :: rest)
  | _ => true

/-- Boolean adjacent-distinct check on a list of patterns. -/
def chainNeB : List (List Bool) → Bool
  | p :: q :: rest => !(p == q) && chainNeB (q :: rest)
  | _ => true

/-- Well-formedness of one coordinate row: the right boundary count,
starting at zero, ending at the ungapped length, non-decreasing. -/
def rowOk (len : Nat) (bnd : Nat) (row : List Nat) : Bool :=
  row.length == bnd && row.headD 0 == 0 && row.getLastD 0 == len &&
    chainLeB row

/-- Well-formedness of one block: positive column width, and every row
either stays flat or advances by exactly the block width. -/
def blockOkAt (coords : List (List Nat)) (k : Nat) : Bool :=
  1 ≤ (blockWidths coords).getD k 0 &&
    coords.all (fun row =>
      stepAt row k == 0 || stepAt row k == (blockWidths coords).getD k 0)

/-- A valid alignment per the spec's data-model invariants plus
aligned-FASTA representability of the records. -/
def validA (A : FastaAlignment) : Bool :=
  !A.records.isEmpty &&
    A.coordinates.length == A.records.length &&
    1 ≤ (A.coordinates.headD []).length &&
    (A.records.zip A.coordinates).all
      (fun p => recordOk p.1 && rowOk p.1.seq.length (A.coordinates.headD []).length p.2) &&
    (List.range ((A.coordinates.headD []).length - 1)).all (fun k => blockOkAt A.coordinates k)

/-- Minimality of the coordinate table: adjacent blocks have different
gap patterns. -/
def minimalA (A : FastaAlignment) : Bool :=
  chainNeB (stepPatterns A.coordinates)

/-- `dropWhile` keeps a list whose head fails the predicate. -/
lemma dropWhile_eq_self_of_head {α : Type} {p : α → Bool} : ∀ {l : List α},
    (∀ c ∈ l.take 1, p c = false) → l.dropWhile p = l := by
  intro l h
  cases l with
  | nil => rfl
  | cons c t =>
    rw [List.dropWhile_cons]
    rw [h c (by simp)]
    simp

/-- `rstripL` keeps a list with no trailing whitespace. -/
lemma rstrip_eq_self_of_last {l : List Char} (h : ∀ c ∈ l.reverse.take 1, isWS c = false) :
    rstripL l = l := by
  rw [rstripL, dropWhile_eq_self_of_head h, List.reverse_reverse]

/-- `rstripL` of an all-non-whitespace list. -/
lemma rstrip_eq_self {l : List Char} (h : ∀ c ∈ l, isWS c = false) : rstripL l = l :=
  rstrip_eq_self_of_last (fun c hc => h c (List.mem_reverse.mp (List.mem_of_mem_take hc)))

/-- `stripL` of an all-non-whitespace list. -/
lemma strip_eq_self {l : List Char} (h : ∀ c ∈ l, isWS c = false) : stripL l = l := by
  rw [stripL, rstrip_eq_self h]
  exact dropWhile_eq_self_of_head (fun c hc => h c (List.mem_of_mem_take hc))

/-- Trailing all-whitespace text disappears under `rstripL`. -/
lemma rstrip_append_ws {x t : List Char} (ht : ∀ c ∈ t, isWS c = true) :
    rstripL (x ++ t) = rstripL x := by
  rw [rstripL, List.reverse_append, List.dropWhile_append_of_pos
    (fun c hc => ht c (List.mem_reverse.mp hc))]
  rfl

/-- `getD` at zero is `headD`. -/
lemma getD_zero_headD {α : Type} (l : List α) (d : α) : l.getD 0 d = l.headD d := by
  cases l <;> rfl

/-- The last entry of a longer list, seen from its tail. -/
lemma getLastD_cons_cons (a b : Nat) (rest : List Nat) :
    (a :: b :: rest).getLastD 0 = (b :: rest).getLastD 0 := by
  rw [List.getLastD_eq_getLast?, List.getLastD_eq_getLast?, List.getLast?_cons_cons]

/-- The head of a non-decreasing list bounds its last entry. -/
lemma chainLe_headD_le_getLastD : ∀ (l : List Nat), List.Chain' (· ≤ ·) l →
    l.headD 0 ≤ l.getLastD 0 := by
  intro l
  induction l with
  | nil => intro _; exact le_refl _
  | cons a t ih =>
    intro hc
    cases t with
    | nil => simp
    | cons b rest =>
      have h1 : a ≤ b := (List.chain'_cons.mp hc).1
      have h2 := ih (List.chain'_cons.mp hc).2
      rw [getLastD_cons_cons]
      exact le_trans h1 (by simpa using h2)

/-- Adjacent entries of a non-decreasing list via `getD`. -/
lemma chainLe_getD_le {l : List Nat} (hc : List.Chain' (· ≤ ·) l) (k : Nat)
    (hk : k + 1 < l.length) : l.getD k 0 ≤ l.getD (k + 1) 0 := by
  rw [getD_of_lt _ _ _ (by omega), getD_of_lt _ _ _ hk]
  exact List.chain'_iff_get.mp hc k (by omega)

/-- Decomposing `take` across a split point. -/
lemma take_add' {α : Type} : ∀ (l : List α) (m n : Nat),
    l.take (m + n) = l.take m ++ (l.drop m).take n := by
  intro l
  induction l with
  | nil => intro m n; simp
  | cons a t ih =>
    intro m n
    cases m with
    | zero => simp
    | succ m2 =>
      have : m2 + 1 + n = (m2 + n) + 1 := by omega
      rw [this]
      simp only [List.take_succ_cons, List.drop_succ_cons, List.cons_append]
      rw [ih m2 n]

/-- `rstripL` keeps a nonempty list whose last character is not
whitespace. -/
lemma rstrip_eq_self_of_getLastD {l : List Char} (hne : l ≠ [])
    (h : isWS (l.getLastD ' ') = false) : rstripL l = l := by
  cases hrev : l.reverse with
  | nil => exact absurd (by simpa using congrArg List.reverse hrev) hne
  | cons c t =>
    have hlast : l.getLast? = some c := by
      rw [← List.head?_reverse, hrev]
      rfl
    have hc : isWS c = false := by
      rw [List.getLastD_eq_getLast?, hlast] at h
      exact h
    rw [rstripL, hrev, List.dropWhile_cons, hc]
    simp only [Bool.false_eq_true, if_false]
    rw [← hrev, List.reverse_reverse]

/-- Parsing the header content the writer emits recovers the id and the
description. -/
lemma parseHeader_header (idc : List Char) (d : Option (List Char))
    (hid : idc ≠ []) (hidws : ∀ c ∈ idc, isWS c = false)
    (hd : ∀ s, d = some s → s ≠ [] ∧ isWS (s.headD ' ') = false ∧
      isWS (s.getLastD ' ') = false) :
    parseHeader (idc ++ ' ' :: descStr d) = .ok (idc, d) := by
  obtain ⟨c0, id0, hc0⟩ := List.exists_cons_of_ne_nil hid
  have hidp : ∀ c ∈ idc, (fun c => !isWS c) c = true := by
    intro c hc
    simp [hidws c hc]
  cases d with
  | none =>
    have h1 : rstripL (idc ++ ' ' :: descStr none) = idc := by
      show rstripL (idc ++ [' ']) = idc
      rw [rstrip_append_ws (t := [' ']) (by intro c hc; simp at hc; subst hc; rfl)]
      exact rstrip_eq_self hidws
    rw [parseHeader, h1]
    have h2 : splitNone1 idc = [idc] := by
      rw [splitNone1]
      have hdw : idc.dropWhile isWS = idc := dropWhile_eq_self_of_head
        (fun c hc => hidws c (List.mem_of_mem_take hc))
      simp only [hdw]
      rw [if_neg hid]
      have htw : idc.takeWhile (fun c => !isWS c) = idc :=
        List.takeWhile_eq_self_iff.mpr hidp
      have hdw2 : idc.dropWhile (fun c => !isWS c) = [] :=
        List.dropWhile_eq_nil_iff.mpr hidp
      rw [htw, hdw2]
      simp
    rw [h2]
  | some s =>
    obtain ⟨hs, hsh, hsl⟩ := hd s rfl
    obtain ⟨s0, s1, hs0⟩ := List.exists_cons_of_ne_nil hs
    have h1 : rstripL (idc ++ ' ' :: descStr (some s)) = idc ++ ' ' :: s := by
      show rstripL (idc ++ ' ' :: s) = idc ++ ' ' :: s
      apply rstrip_eq_self_of_getLastD (by simp)
      have hgl : (idc ++ ' ' :: s).getLast? = s.getLast? := by
        rw [List.getLast?_append]
        cases hgs : s.getLast? with
        | none =>
          rw [List.getLast?_eq_none_iff] at hgs
          exact absurd hgs hs
        | some x =>
          rw [hs0, List.getLast?_cons_cons, ← hs0, hgs]
          rfl
      rw [List.getLastD_eq_getLast?, hgl, ← List.getLastD_eq_getLast?]
      exact hsl
    rw [parseHeader, h1]
    have h2 : splitNone1 (idc ++ ' ' :: s) = [idc, s] := by
      rw [splitNone1]
      have hdw : (idc ++ ' ' :: s).dropWhile isWS = idc ++ ' ' :: s := by
        apply dropWhile_eq_self_of_head
        intro c hc
        have hcc : c = c0 := by
          rw [hc0] at hc
          simpa using hc
        rw [hcc]
        exact hidws c0 (by rw [hc0]; simp)
      simp only [hdw]
      rw [if_neg (by simp [hc0])]
      have htw : (idc ++ ' ' :: s).takeWhile (fun c => !isWS c) = idc := by
        rw [List.takeWhile_append_of_pos hidp, List.takeWhile_cons]
        simp [show isWS ' ' = true from rfl]
      have hdw2 : (idc ++ ' ' :: s).dropWhile (fun c => !isWS c) = ' ' :: s := by
        rw [List.dropWhile_append_of_pos hidp, List.dropWhile_cons]
        simp [show isWS ' ' = true from rfl]
      rw [htw, hdw2]
      have hdw3 : (' ' :: s).dropWhile isWS = s := by
        rw [List.dropWhile_cons]
        simp only [show isWS ' ' = true from rfl, if_true]
        apply dropWhile_eq_self_of_head
        intro c hc
        have hcc : c = s0 := by
          rw [hs0] at hc
          simpa using hc
        have hsh2 := hsh
        rw [hs0] at hsh2
        rw [hcc]
        simpa using hsh2
      rw [hdw3, if_neg hs]
    rw [h2]

/-- Conditions under which a record/gapped-line pair survives the writer
and the reader unchanged. -/
def pairOk (p : Record × List Char) : Prop :=
  p.1.id ≠ [] ∧ (∀ c ∈ p.1.id, isWS c = false) ∧
    (∀ s, p.1.description = some s → s ≠ [] ∧ isWS (s.headD ' ') = false ∧
      isWS (s.getLastD ' ') = false) ∧
    ∀ c ∈ p.2, isWS c = false ∧ c ≠ '>'

/-- Scanning the writer's interleaved output recovers the ids, the
descriptions and the gapped lines. -/
lemma scan_interleave : ∀ (l : List (Record × List Char)) ns ds bs,
    (∀ p ∈ l, pairOk p) →
    scan (interleavePairs l) ns ds bs =
      .ok (ns.reverse ++ l.map (fun p => p.1.id),
           ds.reverse ++ l.map (fun p => p.1.description),
           bs.reverse ++ l.map (fun p => p.2)) := by
  intro l
  induction l with
  | nil => intro ns ds bs _; simp [interleavePairs, scan]
  | cons pr l ih =>
    intro ns ds bs h
    obtain ⟨r, line⟩ := pr
    obtain ⟨hid, hidws, hdesc, hline⟩ := h (r, line) (by simp)
    have hhdr : isHeader ('>' :: r.id ++ ' ' :: descStr r.description) = true := by
      show decide ('>' = '>') = true
      decide
    show scan (('>' :: r.id ++ ' ' :: descStr r.description) :: line :: interleavePairs l)
      ns ds bs = _
    rw [scan_cons, if_pos hhdr]
    have hdrop : ('>' :: r.id ++ ' ' :: descStr r.description).drop 1 =
        r.id ++ ' ' :: descStr r.description := rfl
    rw [hdrop, parseHeader_header r.id r.description hid hidws hdesc]
    dsimp only
    rw [scan_cons]
    have hlh : isHeader line = false := by
      cases line with
      | nil => rfl
      | cons c t =>
        have h2 := (hline c (by simp)).2
        show decide (c = '>') = false
        simpa using h2
    rw [hlh]
    simp only [Bool.false_eq_true, if_false]
    have hstrip : stripL line = line :=
      strip_eq_self (fun c hc => (hline c hc).1)
    rw [hstrip]
    rw [List.nil_append]
    rw [ih (r.id :: ns) (r.description :: ds) (line :: bs)
      (fun p hp => h p (by simp [hp]))]
    simp [List.append_assoc]

/-- A newline-free line is one line. -/
lemma splitNl_no_nl : ∀ (l : List Char), (∀ c ∈ l, c ≠ '\n') → splitNl l = [l] := by
  intro l
  induction l with
  | nil => intro _; rfl
  | cons c t ih =>
    intro h
    have hc : c ≠ '\n' := h c (by simp)
    rw [splitNl, if_neg hc, ih (fun x hx => h x (by simp [hx]))]

/-- Splitting after one explicit newline. -/
lemma splitNl_append : ∀ (l : List Char) (rest : List Char), (∀ c ∈ l, c ≠ '\n') →
    splitNl (l ++ '\n' :: rest) = l :: splitNl rest := by
  intro l
  induction l with
  | nil =>
    intro rest _
    show splitNl ('\n' :: rest) = [] :: splitNl rest
    rw [splitNl, if_pos rfl]
  | cons c t ih =>
    intro rest h
    have hc : c ≠ '\n' := h c (by simp)
    show splitNl (c :: (t ++ '\n' :: rest)) = (c :: t) :: splitNl rest
    rw [splitNl, if_neg hc, ih rest (fun x hx => h x (by simp [hx]))]

/-- Splitting the joined lines recovers the lines. -/
lemma splitNl_joinLines : ∀ (ls : List (List Char)), ls ≠ [] →
    (∀ l ∈ ls, ∀ c ∈ l, c ≠ '\n') → splitNl (joinLines ls) = ls := by
  intro ls
  induction ls with
  | nil => intro h _; exact absurd rfl h
  | cons l ls' ih =>
    intro _ h
    cases ls' with
    | nil => exact splitNl_no_nl l (h l (by simp))
    | cons l2 ls'' =>
      show splitNl (l ++ '\n' :: joinLines (l2 :: ls'')) = l :: l2 :: ls''
      rw [splitNl_append l _ (h l (by simp))]
      rw [ih (by simp) (fun x hx => h x (by simp [hx]))]

/-- Stripping the gaps from a reconstructed row recovers the slice of the
ungapped sequence between the row's first and last boundaries. -/
lemma removeGaps_gappedRow : ∀ (wl : List Nat) (row : List Nat) (seq : List Char),
    (∀ c ∈ seq, c ≠ '-') → List.Chain' (· ≤ ·) row → row.length = wl.length + 1 →
    removeGaps (gappedRow seq row wl) =
      (seq.drop (row.headD 0)).take (row.getLastD 0 - row.headD 0) := by
  intro wl
  induction wl with
  | nil =>
    intro row seq _ _ hlen
    obtain ⟨a, hrow⟩ : ∃ a, row = [a] := by
      cases row with
      | nil => simp at hlen
      | cons a t =>
        cases t with
        | nil => exact ⟨a, rfl⟩
        | cons b t2 => simp at hlen
    subst hrow
    simp [gappedRow, removeGaps]
  | cons w ws' ih =>
    intro row seq hseq hchain hlen
    obtain ⟨a, b, rest, hrow⟩ : ∃ a b rest, row = a :: b :: rest := by
      cases row with
      | nil => simp at hlen
      | cons a t =>
        cases t with
        | nil => simp at hlen
        | cons b t2 => exact ⟨a, b, t2, rfl⟩
    subst hrow
    have hab : a ≤ b := (List.chain'_cons.mp hchain).1
    have hchain2 : List.Chain' (· ≤ ·) (b :: rest) := (List.chain'_cons.mp hchain).2
    have hblast : b ≤ (b :: rest).getLastD 0 := by
      have := chainLe_headD_le_getLastD (b :: rest) hchain2
      simpa using this
    show removeGaps ((if a = b then List.replicate w '-'
        else (seq.drop a).take (b - a)) ++ gappedRow seq (b :: rest) ws') = _
    rw [removeGaps, List.filter_append]
    rw [show List.filter (fun c => c ≠ '-') (gappedRow seq (b :: rest) ws') =
      removeGaps (gappedRow seq (b :: rest) ws') from rfl]
    rw [ih (b :: rest) seq hseq hchain2 (by simpa using hlen)]
    rw [getLastD_cons_cons]
    by_cases hab2 : a = b
    · rw [if_pos hab2]
      have hrep : List.filter (fun c => c ≠ '-') (List.replicate w '-') = [] := by
        rw [List.filter_eq_nil_iff]
        intro c hc
        have : c = '-' := by
          have := List.eq_of_mem_replicate hc
          exact this
        simp [this]
      rw [hrep, List.nil_append]
      rw [show (a :: b :: rest).headD 0 = a from rfl, show (b :: rest).headD 0 = b from rfl]
      rw [hab2]
    · rw [if_neg hab2]
      have hslice : List.filter (fun c => c ≠ '-') ((seq.drop a).take (b - a)) =
          (seq.drop a).take (b - a) := by
        rw [List.filter_eq_self]
        intro c hc
        have : c ∈ seq := List.mem_of_mem_drop (List.mem_of_mem_take hc)
        simpa using hseq c this
      rw [hslice]
      rw [show (a :: b :: rest).headD 0 = a from rfl, show (b :: rest).headD 0 = b from rfl]
      have hdrop : (seq.drop a).drop (b - a) = seq.drop b := by
        rw [List.drop_drop]
        congr 1
        omega
      have hsum : (b - a) + ((b :: rest).getLastD 0 - b) =
          (b :: rest).getLastD 0 - a := by omega
      rw [← hsum, take_add' (seq.drop a) (b - a) ((b :: rest).getLastD 0 - b), hdrop]

/-- Step indices shift across a cons. -/
lemma stepAt_cons (a : Nat) (t : List Nat) (k : Nat) :
    stepAt t k = stepAt (a :: t) (k + 1) := by
  unfold stepAt
  rw [List.getD_cons_succ, List.getD_cons_succ]

/-- The reconstructed row spans exactly the total block width. -/
lemma gappedRow_length : ∀ (wl : List Nat) (row : List Nat) (seq : List Char),
    List.Chain' (· ≤ ·) row → row.length = wl.length + 1 →
    row.getLastD 0 ≤ seq.length →
    (∀ k, k < wl.length → stepAt row k = 0 ∨ stepAt row k = wl.getD k 0) →
    (gappedRow seq row wl).length = wl.sum := by
  intro wl
  induction wl with
  | nil =>
    intro row seq _ hlen _ _
    obtain ⟨a, hrow⟩ : ∃ a, row = [a] := by
      cases row with
      | nil => simp at hlen
      | cons a t =>
        cases t with
        | nil => exact ⟨a, rfl⟩
        | cons b t2 => simp at hlen
    subst hrow
    simp [gappedRow]
  | cons w ws' ih =>
    intro row seq hchain hlen hlast hsteps
    obtain ⟨a, b, rest, hrow⟩ : ∃ a b rest, row = a :: b :: rest := by
      cases row with
      | nil => simp at hlen
      | cons a t =>
        cases t with
        | nil => simp at hlen
        | cons b t2 => exact ⟨a, b, t2, rfl⟩
    subst hrow
    have hab : a ≤ b := (List.chain'_cons.mp hchain).1
    have hchain2 : List.Chain' (· ≤ ·) (b :: rest) := (List.chain'_cons.mp hchain).2
    have hlast2 : (b :: rest).getLastD 0 ≤ seq.length := by
      rw [getLastD_cons_cons] at hlast
      exact hlast
    have hblast : b ≤ (b :: rest).getLastD 0 := by
      have := chainLe_headD_le_getLastD (b :: rest) hchain2
      simpa using this
    show ((if a = b then List.replicate w '-'
        else (seq.drop a).take (b - a)) ++ gappedRow seq (b :: rest) ws').length = _
    rw [List.length_append]
    have hrec : (gappedRow seq (b :: rest) ws').length = ws'.sum := by
      apply ih (b :: rest) seq hchain2 (by simpa using hlen) hlast2
      intro k hk
      rw [stepAt_cons a (b :: rest) k]
      have := hsteps (k + 1) (by simpa using hk)
      rw [List.getD_cons_succ] at this
      exact this
    rw [hrec, List.sum_cons]
    congr 1
    by_cases hab2 : a = b
    · rw [if_pos hab2]
      exact List.length_replicate _ _
    · rw [if_neg hab2]
      have hstep0 := hsteps 0 (by simp)
      have hstep0e : stepAt (a :: b :: rest) 0 = b - a := rfl
      rw [hstep0e] at hstep0
      have hw : b - a = w := by
        rcases hstep0 with h0 | h0
        · omega
        · simpa using h0
      rw [List.length_take, List.length_drop]
      omega

/-- `maxLen` of a nonempty constant-length family. -/
lemma maxLen_const : ∀ (rows : List (List Char)) (W : Nat), rows ≠ [] →
    (∀ r ∈ rows, r.length = W) → maxLen rows = W := by
  intro rows
  induction rows with
  | nil => intro W h _; exact absurd rfl h
  | cons r rs ih =>
    intro W _ h
    show max r.length (maxLen rs) = W
    rw [h r (by simp)]
    cases rs with
    | nil => simp [maxLen]
    | cons r2 rs2 =>
      rw [ih W (by simp) (fun x hx => h x (by simp [hx]))]
      simp

/-- Membership expressed through `getD`. -/
lemma mem_getD_form {α : Type} {l : List α} {x : α} (d : α) (h : x ∈ l) :
    ∃ i, i < l.length ∧ l.getD i d = x := by
  obtain ⟨i, hi, he⟩ := List.mem_iff_getElem.mp h
  exact ⟨i, hi, by rw [getD_of_lt _ _ _ hi]; exact he⟩

/-- Peeling one homogeneous block of columns off the column patterns: if
every row starts with a segment of length `w` whose characters all share
the gap status recorded in `p`, the first `w` column patterns are `p` and
the rest are the column patterns of the remainders. -/
lemma colPatternsAux_peel : ∀ (w m : Nat) (p : List Bool)
    (items2 : List (List Char × List Char)),
    p.length = items2.length →
    (∀ i, i < items2.length → (items2.getD i ([], [])).1.length = w ∧
      ∀ c ∈ (items2.getD i ([], [])).1, decide (c ≠ '-') = p.getD i false) →
    colPatternsAux (w + m) (items2.map (fun x => x.1 ++ x.2)) =
      List.replicate w p ++ colPatternsAux m (items2.map (fun x => x.2)) := by
  intro w
  induction w with
  | zero =>
    intro m p items2 _ hcond
    rw [Nat.zero_add, List.replicate_zero, List.nil_append]
    congr 1
    apply List.map_congr_left
    intro x hx
    obtain ⟨i, hi, hget⟩ := mem_getD_form ([], []) hx
    have := (hcond i hi).1
    rw [hget] at this
    have hx1 : x.1 = [] := List.length_eq_zero.mp this
    rw [hx1, List.nil_append]
  | succ w ih =>
    intro m p items2 hlen hcond
    have hsucc : w + 1 + m = (w + m) + 1 := by omega
    rw [hsucc, colPatternsAux]
    have hcol : (items2.map (fun x => x.1 ++ x.2)).map
        (fun r => decide (r.headD '-' ≠ '-')) = p := by
      apply List.ext_getElem
      · rw [List.length_map, List.length_map, hlen]
      · intro i h1 h2
        rw [List.getElem_map, List.getElem_map]
        have hi : i < items2.length := by simpa using h1
        obtain ⟨hl1, hch⟩ := hcond i hi
        rw [getD_of_lt _ _ _ hi] at hl1 hch
        obtain ⟨c, cs, hc⟩ := List.exists_cons_of_ne_nil
          (show items2[i].1 ≠ [] by intro he; rw [he] at hl1; simp at hl1)
        have := hch c (by rw [hc]; simp)
        rw [hc] at *
        rw [show (c :: cs ++ items2[i].2).headD '-' = c from rfl]
        rw [this, getD_of_lt _ _ _ (by omega)]
    rw [hcol]
    have htails : (items2.map (fun x => x.1 ++ x.2)).map List.tail =
        (items2.map (fun x => (x.1.tail, x.2))).map (fun x => x.1 ++ x.2) := by
      rw [List.map_map, List.map_map]
      apply List.map_congr_left
      intro x hx
      obtain ⟨i, hi, hget⟩ := mem_getD_form ([], []) hx
      have hl1 := (hcond i hi).1
      rw [hget] at hl1
      obtain ⟨c, cs, hc⟩ := List.exists_cons_of_ne_nil
        (show x.1 ≠ [] by intro he; rw [he] at hl1; simp at hl1)
      show (x.1 ++ x.2).tail = x.1.tail ++ x.2
      rw [hc]
      rfl
    rw [htails]
    have hcond2 : ∀ i, i < (items2.map (fun x => (x.1.tail, x.2))).length →
        (((items2.map (fun x => (x.1.tail, x.2))).getD i ([], [])).1.length = w ∧
          ∀ c ∈ ((items2.map (fun x => (x.1.tail, x.2))).getD i ([], [])).1,
            decide (c ≠ '-') = p.getD i false) := by
      intro i hi
      have hi2 : i < items2.length := by simpa using hi
      rw [getD_map_of_lt _ _ _ _ ([], []) hi2]
      obtain ⟨hl1, hch⟩ := hcond i hi2
      constructor
      · show (items2.getD i ([], [])).1.tail.length = w
        rw [List.length_tail, hl1]
        omega
      · intro c hc
        exact hch c (List.mem_of_mem_tail hc)
    rw [ih m p (items2.map (fun x => (x.1.tail, x.2))) (by simpa using hlen) hcond2]
    rw [List.map_map]
    rw [show ((fun (x : List Char × List Char) => x.2) ∘
      (fun (x : List Char × List Char) => (x.1.tail, x.2))) =
      (fun (x : List Char × List Char) => x.2) from rfl]
    rw [List.replicate_succ, List.cons_append]

/-- The first-block segment of one reconstructed row. -/
def segOf (w : Nat) (x : List Char × List Nat) : List Char :=
  if x.2.getD 0 0 = x.2.getD 1 0 then List.replicate w '-'
  else (x.1.drop (x.2.getD 0 0)).take (x.2.getD 1 0 - x.2.getD 0 0)

/-- The column patterns of the reconstructed rows are the block patterns,
each repeated for the block's width. -/
lemma colPat_blocks : ∀ (wl : List Nat) (pl : List (List Bool))
    (items : List (List Char × List Nat)),
    pl.length = wl.length →
    (∀ x ∈ items, x.2.length = wl.length + 1 ∧ List.Chain' (· ≤ ·) x.2 ∧
      x.2.getLastD 0 ≤ x.1.length ∧ ∀ c ∈ x.1, c ≠ '-') →
    (∀ k, k < wl.length → 1 ≤ wl.getD k 0 ∧
      (∀ x ∈ items, stepAt x.2 k = 0 ∨ stepAt x.2 k = wl.getD k 0) ∧
      pl.getD k [] = items.map (fun x => decide (stepAt x.2 k ≠ 0))) →
    colPatternsAux wl.sum (items.map (fun x => gappedRow x.1 x.2 wl)) =
      (wl.zip pl).flatMap (fun y => List.replicate y.1 y.2) := by
  intro wl
  induction wl with
  | nil =>
    intro pl items _ _ _
    simp [colPatternsAux]
  | cons w ws' ih =>
    intro pl items hlen hitems hblocks
    cases pl with
    | nil => simp at hlen
    | cons p pl' =>
    have hshape : ∀ x ∈ items, ∃ a b rest, x.2 = a :: b :: rest := by
      intro x hx
      have hl := (hitems x hx).1
      cases hx2 : x.2 with
      | nil => rw [hx2] at hl; simp at hl
      | cons a t =>
        cases ht : t with
        | nil => rw [hx2, ht] at hl; simp at hl
        | cons b rest => exact ⟨a, b, rest, rfl⟩
    have hrows : items.map (fun x => gappedRow x.1 x.2 (w :: ws')) =
        (items.map (fun x => (segOf w x, gappedRow x.1 x.2.tail ws'))).map
          (fun y => y.1 ++ y.2) := by
      rw [List.map_map]
      apply List.map_congr_left
      intro x hx
      obtain ⟨a, b, rest, hrow⟩ := hshape x hx
      show gappedRow x.1 x.2 (w :: ws') = segOf w x ++ gappedRow x.1 x.2.tail ws'
      rw [segOf, hrow]
      rfl
    have hp0 := (hblocks 0 (by simp)).2.2
    rw [show (p :: pl').getD 0 [] = p from rfl] at hp0
    have hw0 := (hblocks 0 (by simp)).1
    rw [show (w :: ws').getD 0 0 = w from rfl] at hw0
    have hsteps0 := (hblocks 0 (by simp)).2.1
    have hsum : (w :: ws').sum = w + ws'.sum := List.sum_cons
    rw [hsum, hrows]
    rw [colPatternsAux_peel w ws'.sum p
      (items.map (fun x => (segOf w x, gappedRow x.1 x.2.tail ws')))
      (by rw [List.length_map, hp0, List.length_map])
      ?_]
    · rw [List.map_map]
      rw [show ((fun (y : List Char × List Char) => y.2) ∘
        (fun x => (segOf w x, gappedRow x.1 x.2.tail ws'))) =
        (fun (x : List Char × List Nat) => gappedRow x.1 x.2.tail ws') from rfl]
      have hmm : items.map (fun x => gappedRow x.1 x.2.tail ws') =
          (items.map (fun x => (x.1, x.2.tail))).map (fun x => gappedRow x.1 x.2 ws') := by
        rw [List.map_map]
        rfl
      rw [hmm]
      rw [ih pl' (items.map (fun x => (x.1, x.2.tail)))
        (by simpa using hlen) ?_ ?_]
      · rw [show (w :: ws').zip (p :: pl') = (w, p) :: ws'.zip pl' from rfl]
        rw [List.flatMap_cons]
      · intro x hx
        obtain ⟨x0, hx0, hx0e⟩ := List.mem_map.mp hx
        obtain ⟨a, b, rest, hrow⟩ := hshape x0 hx0
        obtain ⟨hl0, hch0, hlast0, hgap0⟩ := hitems x0 hx0
        subst hx0e
        refine ⟨?_, ?_, ?_, ?_⟩
        · show x0.2.tail.length = ws'.length + 1
          rw [List.length_tail, hl0]
          simp only [List.length_cons]
          omega
        · exact List.Chain'.tail hch0
        · show x0.2.tail.getLastD 0 ≤ x0.1.length
          rw [hrow]
          rw [show (a :: b :: rest).tail = b :: rest from rfl]
          rw [← getLastD_cons_cons a b rest, ← hrow]
          exact hlast0
        · exact hgap0
      · intro k hk
        have hbk := hblocks (k + 1) (by simpa using hk)
        rw [show (w :: ws').getD (k + 1) 0 = ws'.getD k 0 from rfl] at hbk
        rw [show (p :: pl').getD (k + 1) [] = pl'.getD k [] from rfl] at hbk
        refine ⟨hbk.1, ?_, ?_⟩
        · intro x hx
          obtain ⟨x0, hx0, hx0e⟩ := List.mem_map.mp hx
          obtain ⟨a, b, rest, hrow⟩ := hshape x0 hx0
          subst hx0e
          show stepAt x0.2.tail k = 0 ∨ stepAt x0.2.tail k = ws'.getD k 0
          rw [hrow, show (a :: b :: rest).tail = b :: rest from rfl,
            stepAt_cons a (b :: rest) k, ← hrow]
          exact hbk.2.1 x0 hx0
        · rw [hbk.2.2, List.map_map]
          apply List.map_congr_left
          intro x hx
          obtain ⟨a, b, rest, hrow⟩ := hshape x hx
          show decide (stepAt x.2 (k + 1) ≠ 0) =
            decide (stepAt x.2.tail k ≠ 0)
          rw [hrow, show (a :: b :: rest).tail = b :: rest from rfl,
            stepAt_cons a (b :: rest) k]
    · intro i hi
      rw [List.length_map] at hi
      rw [getD_map_of_lt _ _ _ _ ([], []) hi]
      have hxmem : items.getD i ([], []) ∈ items := by
        rw [getD_of_lt _ _ _ hi]
        exact List.getElem_mem hi
      obtain ⟨a, b, rest, hrow⟩ := hshape _ hxmem
      obtain ⟨hl0, hch0, hlast0, hgap0⟩ := hitems _ hxmem
      have hab : a ≤ b := by
        have := hch0
        rw [hrow] at this
        exact (List.chain'_cons.mp this).1
      have hblast : b ≤ (items.getD i ([], [])).2.getLastD 0 := by
        have hch2 : List.Chain' (· ≤ ·) (b :: rest) := by
          have := hch0
          rw [hrow] at this
          exact (List.chain'_cons.mp this).2
        have h1 := chainLe_headD_le_getLastD (b :: rest) hch2
        rw [hrow, getLastD_cons_cons]
        simpa using h1
      have hstep0e : stepAt (items.getD i ([], [])).2 0 = b - a := by
        rw [hrow]
        rfl
      have hpi : p.getD i false = decide (stepAt (items.getD i ([], [])).2 0 ≠ 0) := by
        rw [hp0, getD_map_of_lt _ _ _ _ ([], []) hi]
      have hseg : segOf w (items.getD i ([], [])) =
          if a = b then List.replicate w '-'
          else ((items.getD i ([], [])).1.drop a).take (b - a) := by
        rw [segOf, hrow]
        rfl
      by_cases hab2 : a = b
      · rw [hseg, if_pos hab2]
        refine ⟨List.length_replicate _ _, ?_⟩
        intro c hc
        have hcd : c = '-' := List.eq_of_mem_replicate hc
        rw [hpi, hstep0e, hcd]
        have : b - a = 0 := by omega
        rw [this]
        simp
      · rw [hseg, if_neg hab2]
        have hne0 : b - a ≠ 0 := by omega
        have hw : b - a = w := by
          rcases hsteps0 _ hxmem with h0 | h0
          · rw [hstep0e] at h0; omega
          · rw [hstep0e] at h0
            rw [show (w :: ws').getD 0 0 = w from rfl] at h0
            exact h0
        constructor
        · rw [List.length_take, List.length_drop]
          omega
        · intro c hc
          have hcmem : c ∈ (items.getD i ([], [])).1 :=
            List.mem_of_mem_drop (List.mem_of_mem_take hc)
          have := hgap0 c hcmem
          rw [hpi, hstep0e]
          simp [this, hne0]

/-- Advance counters across a whole block: rows flagged in the pattern gain
the block width. -/
def addScaled (c : List Nat) (w : Nat) (p : List Bool) : List Nat :=
  c.zipWith (fun n b => if b then n + w else n) p

/-- The boundary columns determined by the block widths and patterns. -/
def boundCols : List Nat → List Nat → List (List Bool) → List (List Nat)
  | c, [], _ => [c]
  | c, _ :: _, [] => [c]
  | c, w :: ws', p :: pl' => c :: boundCols (addScaled c w p) ws' pl'

/-- Length of scaled counters. -/
lemma addScaled_length (c : List Nat) (w : Nat) (p : List Bool)
    (h : p.length = c.length) : (addScaled c w p).length = c.length := by
  unfold addScaled
  rw [List.length_zipWith]
  omega

/-- Componentwise value of scaled counters. -/
lemma addScaled_getD (c : List Nat) (w : Nat) (p : List Bool)
    (hp : p.length = c.length) (i : Nat) (hi : i < c.length) :
    (addScaled c w p).getD i 0 =
      if p.getD i false then c.getD i 0 + w else c.getD i 0 := by
  unfold addScaled
  rw [getD_of_lt _ _ _ (by rw [List.length_zipWith]; omega)]
  rw [List.getElem_zipWith]
  rw [getD_of_lt _ _ _ hi, getD_of_lt _ _ _ (by omega)]

/-- One counter step is a width-one block advance. -/
lemma stepCounters_eq_addScaled (c : List Nat) (p : List Bool) :
    stepCounters c p = addScaled c 1 p := rfl

/-- Scaling twice by the same pattern adds the widths. -/
lemma addScaled_addScaled : ∀ (c : List Nat) (p : List Bool) (m n : Nat),
    addScaled (addScaled c m p) n p = addScaled c (m + n) p := by
  intro c
  induction c with
  | nil => intro p m n; cases p <;> rfl
  | cons x c' ih =>
    intro p m n
    cases p with
    | nil => rfl
    | cons b p' =>
      show (if b then (if b then x + m else x) + n else (if b then x + m else x)) ::
          addScaled (addScaled c' m p') n p' =
        (if b then x + (m + n) else x) :: addScaled c' (m + n) p'
      rw [ih p' m n]
      cases b <;> simp [Nat.add_assoc]

/-- Scaling by zero is the identity on equal-length counters. -/
lemma addScaled_zero : ∀ (c : List Nat) (p : List Bool), p.length = c.length →
    addScaled c 0 p = c := by
  intro c
  induction c with
  | nil => intro p _; cases p <;> rfl
  | cons x c' ih =>
    intro p hp
    cases p with
    | nil => simp at hp
    | cons b p' =>
      show (if b then x + 0 else x) :: addScaled c' 0 p' = x :: c'
      rw [ih p' (by simpa using hp)]
      cases b <;> simp

/-- Consuming a run of identical column patterns advances the counters by
the run length without emitting boundaries. -/
lemma inferWalk_run : ∀ (m : Nat) (p : List Bool) (cs2 : List (List Bool)) (c : List Nat),
    p.length = c.length →
    inferWalk (List.replicate m p ++ cs2) (some p) c =
      inferWalk cs2 (some p) (addScaled c m p) := by
  intro m
  induction m with
  | zero =>
    intro p cs2 c hp
    rw [List.replicate_zero, List.nil_append, addScaled_zero c p hp]
  | succ m' ih =>
    intro p cs2 c hp
    rw [List.replicate_succ, List.cons_append]
    show inferWalk (p :: (List.replicate m' p ++ cs2)) (some p) c = _
    rw [inferWalk, if_pos rfl]
    rw [ih p cs2 (stepCounters c p)
      (by rw [stepCounters_length c p hp]; exact hp)]
    rw [stepCounters_eq_addScaled, addScaled_addScaled]
    rw [show 1 + m' = m' + 1 from by omega]

/-- The column walk over the block-structured patterns emits exactly the
boundary columns. -/
lemma inferWalk_blocks : ∀ (wl : List Nat) (pl : List (List Bool))
    (prev : Option (List Bool)) (c : List Nat),
    pl.length = wl.length →
    (∀ q ∈ pl, q.length = c.length) →
    (∀ k, k < wl.length → 1 ≤ wl.getD k 0) →
    (0 < wl.length → prev ≠ some (pl.getD 0 [])) →
    List.Chain' (· ≠ ·) pl →
    inferWalk ((wl.zip pl).flatMap (fun y => List.replicate y.1 y.2)) prev c =
      boundCols c wl pl := by
  intro wl
  induction wl with
  | nil =>
    intro pl prev c hlen _ _ _ _
    have hpl : pl = [] := List.length_eq_zero.mp hlen
    subst hpl
    rfl
  | cons w ws' ih =>
    intro pl prev c hlen hql hpos hprev hchain
    cases pl with
    | nil => simp at hlen
    | cons p pl' =>
      have hw : 1 ≤ w := by
        have := hpos 0 (by simp)
        simpa using this
      have hpc : p.length = c.length := hql p (by simp)
      show inferWalk (((w, p) :: ws'.zip pl').flatMap fun y => List.replicate y.1 y.2)
        prev c = c :: boundCols (addScaled c w p) ws' pl'
      rw [List.flatMap_cons]
      obtain ⟨w', hw'⟩ : ∃ w', w = w' + 1 := ⟨w - 1, by omega⟩
      rw [hw', List.replicate_succ, List.cons_append]
      show inferWalk (p :: (List.replicate w' p ++ _)) prev c = _
      rw [inferWalk, if_neg (by
        have := hprev (by simp)
        rw [show (p :: pl').getD 0 [] = p from rfl] at this
        exact this)]
      rw [inferWalk_run w' p _ (stepCounters c p)
        (by rw [stepCounters_length c p hpc]; exact hpc)]
      rw [stepCounters_eq_addScaled, addScaled_addScaled]
      rw [show 1 + w' = w' + 1 from by omega, ← hw']
      congr 1
      apply ih pl' (some p) (addScaled c w p) (by simpa using hlen)
      · intro q hq
        rw [addScaled_length c w p hpc]
        exact hql q (by simp [hq])
      · intro k hk
        have := hpos (k + 1) (by simpa using hk)
        rw [show (w :: ws').getD (k + 1) 0 = ws'.getD k 0 from rfl] at this
        exact this
      · intro hlt
        cases pl' with
        | nil =>
          exfalso
          simp only [List.length_cons, List.length_nil] at hlen
          omega
        | cons q t =>
          have hpq : p ≠ q := (List.chain'_cons.mp hchain).1
          rw [show (q :: t).getD 0 [] = q from rfl]
          simp [hpq]
      · exact (List.chain'_cons'.mp hchain).2

/-- Reading one row off the boundary columns recovers the coordinate row it
was built from. -/
lemma boundCols_row : ∀ (wl : List Nat) (pl : List (List Bool)) (c : List Nat)
    (row : List Nat) (i : Nat),
    pl.length = wl.length →
    row.length = wl.length + 1 →
    i < c.length →
    (∀ q ∈ pl, q.length = c.length) →
    c.getD i 0 = row.getD 0 0 →
    (∀ k, k < wl.length → row.getD (k + 1) 0 = row.getD k 0 +
      (if (pl.getD k []).getD i false then wl.getD k 0 else 0)) →
    (boundCols c wl pl).map (fun col => col.getD i 0) = row := by
  intro wl
  induction wl with
  | nil =>
    intro pl c row i hlen hrow _ _ hc0 _
    obtain ⟨r0, hr⟩ : ∃ r0, row = [r0] := by
      cases row with
      | nil => simp at hrow
      | cons r0 t =>
        cases t with
        | nil => exact ⟨r0, rfl⟩
        | cons r1 t2 => simp at hrow
    have hpl : pl = [] := List.length_eq_zero.mp hlen
    subst hpl hr
    show [c.getD i 0] = [r0]
    rw [hc0]
    rfl
  | cons w ws' ih =>
    intro pl c row i hlen hrow hi hql hc0 hsteps
    cases pl with
    | nil => simp at hlen
    | cons p pl' =>
      obtain ⟨r0, row', hr⟩ : ∃ r0 row', row = r0 :: row' := by
        cases row with
        | nil => simp at hrow
        | cons r0 t => exact ⟨r0, t, rfl⟩
      subst hr
      have hpc : p.length = c.length := hql p (by simp)
      show c.getD i 0 :: (boundCols (addScaled c w p) ws' pl').map
        (fun col => col.getD i 0) = r0 :: row'
      have hhead : c.getD i 0 = r0 := by rw [hc0]; rfl
      rw [hhead]
      congr 1
      apply ih pl' (addScaled c w p) row' i (by simpa using hlen)
        (by simpa using hrow) (by rw [addScaled_length c w p hpc]; exact hi)
      · intro q hq
        rw [addScaled_length c w p hpc]
        exact hql q (by simp [hq])
      · rw [addScaled_getD c w p hpc i hi]
        have h0 := hsteps 0 (by simp)
        rw [show (p :: pl').getD 0 [] = p from rfl,
          show (w :: ws').getD 0 0 = w from rfl] at h0
        rw [show (r0 :: row').getD 1 0 = row'.getD 0 0 from rfl,
          show (r0 :: row').getD 0 0 = r0 from rfl] at h0
        rw [h0, hhead]
        by_cases hpb : p.getD i false
        · rw [if_pos hpb, if_pos hpb]
        · rw [if_neg hpb, if_neg hpb]
          omega
      · intro k hk
        have := hsteps (k + 1) (by simpa using hk)
        rw [show (p :: pl').getD (k + 1) [] = pl'.getD k [] from rfl,
          show (w :: ws').getD (k + 1) 0 = ws'.getD k 0 from rfl] at this
        rw [show (r0 :: row').getD (k + 1 + 1) 0 = row'.getD (k + 1) 0 from rfl,
          show (r0 :: row').getD (k + 1) 0 = row'.getD k 0 from rfl] at this
        exact this

/-- Unpacking `recordOk`. -/
lemma recordOk_elim {r : Record} (h : recordOk r = true) :
    r.id ≠ [] ∧ (∀ c ∈ r.id, isWS c = false) ∧
      (∀ s, r.description = some s → s ≠ [] ∧ isWS (s.headD ' ') = false ∧
        isWS (s.getLastD ' ') = false ∧ ∀ c ∈ s, c ≠ '\n') ∧
      ∀ c ∈ r.seq, isWS c = false ∧ c ≠ '-' ∧ c ≠ '>' := by
  unfold recordOk at h
  simp only [Bool.and_eq_true] at h
  obtain ⟨⟨⟨h1, h2⟩, h3⟩, h4⟩ := h
  refine ⟨?_, ?_, ?_, ?_⟩
  · intro he
    rw [he] at h1
    simp at h1
  · intro c hc
    have := (List.all_eq_true.mp h2) c hc
    simpa using this
  · intro s hs
    rw [hs] at h3
    simp only [Bool.and_eq_true] at h3
    obtain ⟨⟨⟨h31, h32⟩, h33⟩, h34⟩ := h3
    refine ⟨?_, by simpa using h32, by simpa using h33, ?_⟩
    · intro he
      rw [he] at h31
      simp at h31
    · intro c hc
      have := (List.all_eq_true.mp h34) c hc
      simpa using this
  · intro c hc
    have := (List.all_eq_true.mp h4) c hc
    simp only [Bool.and_eq_true, decide_eq_true_eq] at this
    exact ⟨by simpa using this.1.1, this.1.2, this.2⟩

/-- Unpacking `rowOk`. -/
lemma chainLeB_chain : ∀ {l : List Nat}, chainLeB l = true → List.Chain' (· ≤ ·) l
  | [], _ => List.chain'_nil
  | [_], _ => List.chain'_singleton _
  | a :: b :: rest, h => by
    unfold chainLeB at h
    rw [Bool.and_eq_true, decide_eq_true_eq] at h
    exact List.chain'_cons.mpr ⟨h.1, chainLeB_chain h.2⟩

/-- `chainNeB` implies adjacent-distinct. -/
lemma chainNeB_chain : ∀ {l : List (List Bool)},
    chainNeB l = true → List.Chain' (· ≠ ·) l
  | [], _ => List.chain'_nil
  | [_], _ => List.chain'_singleton _
  | p :: q :: rest, h => by
    unfold chainNeB at h
    rw [Bool.and_eq_true, Bool.not_eq_true', beq_eq_false_iff_ne, ne_eq] at h
    exact List.chain'_cons.mpr ⟨h.1, chainNeB_chain h.2⟩

lemma rowOk_elim {len bnd : Nat} {row : List Nat} (h : rowOk len bnd row = true) :
    row.length = bnd ∧ row.headD 0 = 0 ∧ row.getLastD 0 = len ∧
      List.Chain' (· ≤ ·) row := by
  unfold rowOk at h
  simp only [Bool.and_eq_true, beq_iff_eq] at h
  exact ⟨h.1.1.1, h.1.1.2, h.1.2, chainLeB_chain h.2⟩

/-- Unpacking `blockOkAt`. -/
lemma blockOkAt_elim {coords : List (List Nat)} {k : Nat}
    (h : blockOkAt coords k = true) :
    1 ≤ (blockWidths coords).getD k 0 ∧
      ∀ row ∈ coords, stepAt row k = 0 ∨
        stepAt row k = (blockWidths coords).getD k 0 := by
  unfold blockOkAt at h
  simp only [Bool.and_eq_true] at h
  constructor
  · simpa using h.1
  · intro row hrow
    have := (List.all_eq_true.mp h.2) row hrow
    simp only [Bool.or_eq_true, beq_iff_eq] at this
    exact this

/-- Unpacking `validA`. -/
lemma validA_elim {A : FastaAlignment} (h : validA A = true) :
    A.records ≠ [] ∧ A.coordinates.length = A.records.length ∧
      1 ≤ (A.coordinates.headD []).length ∧
      (∀ p ∈ A.records.zip A.coordinates, recordOk p.1 = true ∧
        rowOk p.1.seq.length (A.coordinates.headD []).length p.2 = true) ∧
      ∀ k, k < (A.coordinates.headD []).length - 1 → blockOkAt A.coordinates k = true := by
  unfold validA at h
  simp only [Bool.and_eq_true] at h
  obtain ⟨⟨⟨⟨h1, h2⟩, h3⟩, h4⟩, h5⟩ := h
  refine ⟨?_, by simpa using h2, by simpa using h3, ?_, ?_⟩
  · intro he
    rw [he] at h1
    simp at h1
  · intro p hp
    have := (List.all_eq_true.mp h4) p hp
    simpa [Bool.and_eq_true] using this
  · intro k hk
    exact (List.all_eq_true.mp h5) k (List.mem_range.mpr hk)

/-- Every character of a reconstructed row comes from the sequence or is a
gap. -/
lemma gappedRow_chars : ∀ (wl : List Nat) (row : List Nat) (seq : List Char) (c : Char),
    c ∈ gappedRow seq row wl → c ∈ seq ∨ c = '-' := by
  intro wl
  induction wl with
  | nil =>
    intro row seq c hc
    cases row with
    | nil => simp [gappedRow] at hc
    | cons a t =>
      cases t with
      | nil => simp [gappedRow] at hc
      | cons b rest => simp [gappedRow] at hc
  | cons w ws' ih =>
    intro row seq c hc
    cases row with
    | nil => simp [gappedRow] at hc
    | cons a t =>
      cases t with
      | nil => simp [gappedRow] at hc
      | cons b rest =>
        rw [show gappedRow seq (a :: b :: rest) (w :: ws') =
          (if a = b then List.replicate w '-' else (seq.drop a).take (b - a)) ++
            gappedRow seq (b :: rest) ws' from rfl] at hc
        rcases List.mem_append.mp hc with h1 | h2
        · by_cases hab : a = b
          · rw [if_pos hab] at h1
            exact Or.inr (List.eq_of_mem_replicate h1)
          · rw [if_neg hab] at h1
            exact Or.inl (List.mem_of_mem_drop (List.mem_of_mem_take h1))
        · exact ih (b :: rest) seq c h2

/-- Zipping a list with a function of its own zip. -/
lemma zip_with_mapped : ∀ (rs : List Record) (cs : List (List Nat))
    (g : Record × List Nat → List Char), rs.length = cs.length →
    rs.zip ((rs.zip cs).map g) = (rs.zip cs).map (fun x => (x.1, g x)) := by
  intro rs
  induction rs with
  | nil => intro cs g _; rfl
  | cons r rs' ih =>
    intro cs g hlen
    cases cs with
    | nil => simp at hlen
    | cons c cs' =>
      show (r, g (r, c)) :: rs'.zip ((rs'.zip cs').map g) = _
      rw [ih cs' g (by simpa using hlen)]
      rfl

/-- `zip3` of three maps over one list. -/
lemma zip3_maps : ∀ {α : Type} (l : List α) (f : α → List Char)
    (g : α → Option (List Char)) (h : α → List Char),
    zip3 (l.map f) (l.map g) (l.map h) = l.map (fun x => (f x, g x, h x)) := by
  intro α l
  induction l with
  | nil => intro f g h; rfl
  | cons a t ih =>
    intro f g h
    show (f a, g a, h a) :: zip3 (t.map f) (t.map g) (t.map h) = _
    rw [ih f g h]
    rfl

/-- Lines of the interleaved output are headers or gapped lines. -/
lemma mem_interleavePairs : ∀ (L : List (Record × List Char)) (l : List Char),
    l ∈ interleavePairs L →
    (∃ p ∈ L, l = '>' :: p.1.id ++ ' ' :: descStr p.1.description) ∨ ∃ p ∈ L, l = p.2 := by
  intro L
  induction L with
  | nil => intro l hl; simp [interleavePairs] at hl
  | cons pr L' ih =>
    intro l hl
    obtain ⟨r, line⟩ := pr
    rw [show interleavePairs ((r, line) :: L') =
      ('>' :: r.id ++ ' ' :: descStr r.description) :: line :: interleavePairs L' from rfl] at hl
    rcases List.mem_cons.mp hl with h1 | h2
    · exact Or.inl ⟨(r, line), by simp, h1⟩
    · rcases List.mem_cons.mp h2 with h3 | h4
      · exact Or.inr ⟨(r, line), by simp, h3⟩
      · rcases ih l h4 with ⟨p, hp, he⟩ | ⟨p, hp, he⟩
        · exact Or.inl ⟨p, by simp [hp], he⟩
        · exact Or.inr ⟨p, by simp [hp], he⟩

/-- One block pattern of the coordinate table. -/
lemma stepPatterns_getD (coords : List (List Nat)) (k : Nat)
    (hk : k < blockCount coords) :
    (stepPatterns coords).getD k [] =
      coords.map (fun row => decide (stepAt row k ≠ 0)) := by
  unfold stepPatterns
  rw [getD_map_of_lt _ _ _ _ 0 (by simpa using hk)]
  have hri : (List.range (blockCount coords)).getD k 0 = k := by
    rw [getD_of_lt _ _ _ (by simpa using hk)]
    apply List.getElem_range
  rw [hri]

/-- A non-whitespace character is not a newline. -/
lemma ne_nl_of_not_ws {c : Char} (h : isWS c = false) : c ≠ '\n' := by
  intro he
  rw [he] at h
  simp [isWS] at h

/-- C3 amended: formatting a valid alignment whose coordinate table is
minimal (block boundaries only at gap-pattern changes, every block
advancing some row) and re-parsing the text reproduces the alignment
exactly: same ids, descriptions, ungapped sequences, and coordinate
table. -/
theorem c3_roundtrip (A : FastaAlignment) (hv : validA A = true)
    (hm : minimalA A = true) : parseText (format_alignment A) = .ok A := by
  obtain ⟨hv1, hv2, hv3, hv4, hv5⟩ := validA_elim hv
  have hple : (stepPatterns A.coordinates).length = blockCount A.coordinates := by
    unfold stepPatterns
    rw [List.length_map, List.length_range]
  have hwle : (blockWidths A.coordinates).length = blockCount A.coordinates := by
    unfold blockWidths
    rw [List.length_map, List.length_range]
  have hitems : ∀ x ∈ A.records.zip A.coordinates, recordOk x.1 = true ∧
      x.2.length = (A.coordinates.headD []).length ∧ x.2.headD 0 = 0 ∧
      x.2.getLastD 0 = x.1.seq.length ∧ List.Chain' (· ≤ ·) x.2 := by
    intro x hx
    obtain ⟨h1, h2⟩ := hv4 x hx
    obtain ⟨e1, e2, e3, e4⟩ := rowOk_elim h2
    exact ⟨h1, e1, e2, e3, e4⟩
  have hstep_block : ∀ k, k < (blockWidths A.coordinates).length →
      1 ≤ (blockWidths A.coordinates).getD k 0 ∧
      ∀ row ∈ A.coordinates, stepAt row k = 0 ∨
        stepAt row k = (blockWidths A.coordinates).getD k 0 := by
    intro k hk
    rw [hwle] at hk
    exact blockOkAt_elim (hv5 k hk)
  have hrow_len : ∀ x ∈ A.records.zip A.coordinates,
      x.2.length = (blockWidths A.coordinates).length + 1 := by
    intro x hx
    rw [hwle]
    have h1 := (hitems x hx).2.1
    rw [h1]
    show (A.coordinates.headD []).length = blockCount A.coordinates + 1
    unfold blockCount
    omega
  have hglen : ∀ x ∈ A.records.zip A.coordinates,
      (gappedRow x.1.seq x.2 (blockWidths A.coordinates)).length =
        (blockWidths A.coordinates).sum := by
    intro x hx
    exact gappedRow_length _ _ _ (hitems x hx).2.2.2.2 (hrow_len x hx)
      (le_of_eq (hitems x hx).2.2.2.1)
      (fun k hk => (hstep_block k hk).2 x.2 (List.of_mem_zip hx).2)
  have hzlen : (A.records.zip A.coordinates).length = A.records.length := by
    rw [List.length_zip, hv2]
    exact Nat.min_self _
  have hzne : A.records.zip A.coordinates ≠ [] := by
    intro he
    have h1 := congrArg List.length he
    rw [hzlen] at h1
    simp only [List.length_nil] at h1
    exact hv1 (List.length_eq_zero.mp h1)
  have hfl : formatLines A = interleavePairs ((A.records.zip A.coordinates).map
      (fun x => (x.1, gappedRow x.1.seq x.2 (blockWidths A.coordinates)))) := by
    unfold formatLines
    rw [show reconstructRows A = (A.records.zip A.coordinates).map
      (fun x => gappedRow x.1.seq x.2 (blockWidths A.coordinates)) from rfl]
    rw [zip_with_mapped _ _ _ hv2.symm]
  have hpair : ∀ p ∈ (A.records.zip A.coordinates).map
      (fun x => (x.1, gappedRow x.1.seq x.2 (blockWidths A.coordinates))), pairOk p := by
    intro p hp
    obtain ⟨x, hx, he⟩ := List.mem_map.mp hp
    obtain ⟨hro, _, _, _, _⟩ := hitems x hx
    obtain ⟨hid, hidws, hdesc, hseq⟩ := recordOk_elim hro
    subst he
    refine ⟨hid, hidws, ?_, ?_⟩
    · intro s hs
      obtain ⟨e1, e2, e3, _⟩ := hdesc s hs
      exact ⟨e1, e2, e3⟩
    · intro c hc
      rcases gappedRow_chars _ _ _ c hc with h1 | h1
      · have := hseq c h1
        exact ⟨this.1, this.2.2⟩
      · subst h1
        exact ⟨rfl, by decide⟩
  have hids : ((A.records.zip A.coordinates).map
      (fun x => (x.1, gappedRow x.1.seq x.2 (blockWidths A.coordinates)))).map
        (fun p => p.1.id) = A.records.map (fun r => r.id) := by
    rw [List.map_map]
    rw [show ((fun p : Record × List Char => p.1.id) ∘
      (fun x : Record × List Nat =>
        (x.1, gappedRow x.1.seq x.2 (blockWidths A.coordinates)))) =
      ((fun r : Record => r.id) ∘ Prod.fst) from rfl]
    rw [← List.map_map, List.map_fst_zip _ _ (le_of_eq hv2.symm)]
  have hdescs : ((A.records.zip A.coordinates).map
      (fun x => (x.1, gappedRow x.1.seq x.2 (blockWidths A.coordinates)))).map
        (fun p => p.1.description) = A.records.map (fun r => r.description) := by
    rw [List.map_map]
    rw [show ((fun p : Record × List Char => p.1.description) ∘
      (fun x : Record × List Nat =>
        (x.1, gappedRow x.1.seq x.2 (blockWidths A.coordinates)))) =
      ((fun r : Record => r.description) ∘ Prod.fst) from rfl]
    rw [← List.map_map, List.map_fst_zip _ _ (le_of_eq hv2.symm)]
  have hlines : ((A.records.zip A.coordinates).map
      (fun x => (x.1, gappedRow x.1.seq x.2 (blockWidths A.coordinates)))).map
        (fun p => p.2) = (A.records.zip A.coordinates).map
          (fun x => gappedRow x.1.seq x.2 (blockWidths A.coordinates)) := by
    rw [List.map_map]
    rfl
  have hglne : (A.records.zip A.coordinates).map
      (fun x => gappedRow x.1.seq x.2 (blockWidths A.coordinates)) ≠ [] := by
    intro he
    exact hzne (List.map_eq_nil_iff.mp he)
  have hscan2 : scan (interleavePairs ((A.records.zip A.coordinates).map
      (fun x => (x.1, gappedRow x.1.seq x.2 (blockWidths A.coordinates))))) [] [] [] =
      .ok (A.records.map (fun r => r.id), A.records.map (fun r => r.description),
        (A.records.zip A.coordinates).map
          (fun x => gappedRow x.1.seq x.2 (blockWidths A.coordinates))) := by
    rw [scan_interleave _ [] [] [] hpair]
    simp only [List.reverse_nil, List.nil_append]
    rw [hids, hdescs, hlines]
  have hmk : mkRecords (zip3 (A.records.map (fun r => r.id))
      (A.records.map (fun r => r.description))
      ((A.records.zip A.coordinates).map
        (fun x => gappedRow x.1.seq x.2 (blockWidths A.coordinates)))) = A.records := by
    have h1 : A.records.map (fun r => r.id) = (A.records.zip A.coordinates).map
        (fun x => x.1.id) := by
      rw [show (fun x : Record × List Nat => x.1.id) =
        ((fun r : Record => r.id) ∘ Prod.fst) from rfl]
      rw [← List.map_map, List.map_fst_zip _ _ (le_of_eq hv2.symm)]
    have h2 : A.records.map (fun r => r.description) =
        (A.records.zip A.coordinates).map (fun x => x.1.description) := by
      rw [show (fun x : Record × List Nat => x.1.description) =
        ((fun r : Record => r.description) ∘ Prod.fst) from rfl]
      rw [← List.map_map, List.map_fst_zip _ _ (le_of_eq hv2.symm)]
    rw [h1, h2, zip3_maps]
    unfold mkRecords
    rw [List.map_map]
    have h3 : ∀ x ∈ A.records.zip A.coordinates,
        ((fun y : List Char × Option (List Char) × List Char =>
          (⟨y.1, y.2.1, removeGaps y.2.2⟩ : Record)) ∘
          (fun x : Record × List Nat => (x.1.id, x.1.description,
            gappedRow x.1.seq x.2 (blockWidths A.coordinates)))) x = x.1 := by
      intro x hx
      obtain ⟨hro, hlen2, hhead, hlast, hchain⟩ := hitems x hx
      obtain ⟨_, _, _, hseq⟩ := recordOk_elim hro
      show (⟨x.1.id, x.1.description,
        removeGaps (gappedRow x.1.seq x.2 (blockWidths A.coordinates))⟩ : Record) = x.1
      have hrg : removeGaps (gappedRow x.1.seq x.2 (blockWidths A.coordinates)) =
          x.1.seq := by
        rw [removeGaps_gappedRow _ _ _ (fun c hc => (hseq c hc).2.1) hchain
          (hrow_len x hx)]
        rw [hhead, hlast]
        simp
      rw [hrg]
    rw [List.map_congr_left h3]
    exact List.map_fst_zip _ _ (le_of_eq hv2.symm)
  have hinfer : infer_coordinates ((A.records.zip A.coordinates).map
      (fun x => gappedRow x.1.seq x.2 (blockWidths A.coordinates))) = A.coordinates := by
    have hml : maxLen ((A.records.zip A.coordinates).map
        (fun x => gappedRow x.1.seq x.2 (blockWidths A.coordinates))) =
        (blockWidths A.coordinates).sum := by
      apply maxLen_const _ _ hglne
      intro r hr
      obtain ⟨x, hx, he⟩ := List.mem_map.mp hr
      rw [← he]
      exact hglen x hx
    have hcp : colPatterns ((A.records.zip A.coordinates).map
        (fun x => gappedRow x.1.seq x.2 (blockWidths A.coordinates))) =
        ((blockWidths A.coordinates).zip (stepPatterns A.coordinates)).flatMap
          (fun y => List.replicate y.1 y.2) := by
      unfold colPatterns
      rw [hml]
      rw [show (A.records.zip A.coordinates).map
        (fun x => gappedRow x.1.seq x.2 (blockWidths A.coordinates)) =
        ((A.records.zip A.coordinates).map (fun x => (x.1.seq, x.2))).map
          (fun y => gappedRow y.1 y.2 (blockWidths A.coordinates)) from by
        rw [List.map_map]
        rfl]
      apply colPat_blocks
      · rw [hple, hwle]
      · intro y hy
        obtain ⟨x, hx, he⟩ := List.mem_map.mp hy
        obtain ⟨hro, hlen2, hhead, hlast, hchain⟩ := hitems x hx
        obtain ⟨_, _, _, hseq⟩ := recordOk_elim hro
        rw [← he]
        exact ⟨hrow_len x hx, hchain, le_of_eq hlast,
          fun c hc => (hseq c hc).2.1⟩
      · intro k hk
        refine ⟨(hstep_block k hk).1, ?_, ?_⟩
        · intro y hy
          obtain ⟨x, hx, he⟩ := List.mem_map.mp hy
          rw [← he]
          exact (hstep_block k hk).2 x.2 (List.of_mem_zip hx).2
        · rw [stepPatterns_getD A.coordinates k (by rw [← hwle]; exact hk)]
          rw [List.map_map]
          rw [show ((fun y : List Char × List Nat => decide (stepAt y.2 k ≠ 0)) ∘
            (fun x : Record × List Nat => (x.1.seq, x.2))) =
            ((fun row => decide (stepAt row k ≠ 0)) ∘ Prod.snd) from rfl]
          rw [← List.map_map, List.map_snd_zip _ _ (le_of_eq hv2)]
    unfold infer_coordinates
    rw [hcp]
    have hzeros_len : (((A.records.zip A.coordinates).map
        (fun x => gappedRow x.1.seq x.2 (blockWidths A.coordinates))).map
          (fun _ => (0 : Nat))).length = A.coordinates.length := by
      rw [List.length_map, List.length_map, hzlen, hv2]
    have hql : ∀ q ∈ stepPatterns A.coordinates,
        q.length = (((A.records.zip A.coordinates).map
          (fun x => gappedRow x.1.seq x.2 (blockWidths A.coordinates))).map
            (fun _ => (0 : Nat))).length := by
      intro q hq
      unfold stepPatterns at hq
      obtain ⟨k, _, he⟩ := List.mem_map.mp hq
      rw [← he, List.length_map, hzeros_len]
    rw [inferWalk_blocks (blockWidths A.coordinates) (stepPatterns A.coordinates)
      none _ (by rw [hple, hwle]) hql (fun k hk => (hstep_block k hk).1)
      (fun _ => by simp) (chainNeB_chain hm)]
    apply List.ext_getElem
    · rw [List.length_map, List.length_range, List.length_map, hzlen, hv2]
    · intro i h1 h2
      rw [List.getElem_map, List.getElem_range]
      have hiz : i < A.coordinates.length := h2
      have hir : i < A.records.length := by rw [← hv2]; exact hiz
      have hizz : i < (A.records.zip A.coordinates).length := by
        rw [hzlen]
        exact hir
      have hzi : (A.records.zip A.coordinates)[i] =
          (A.records[i], A.coordinates[i]) :=
        List.getElem_zip
      have hximem : (A.records.zip A.coordinates)[i] ∈
          A.records.zip A.coordinates := List.getElem_mem _
      obtain ⟨hro, hlen2, hhead, hlast, hchain⟩ := hitems _ hximem
      rw [hzi] at hlen2 hhead hlast hchain
      apply boundCols_row _ _ _ _ _ (by rw [hple, hwle])
      · show A.coordinates[i].length = (blockWidths A.coordinates).length + 1
        rw [hlen2, hwle]
        show (A.coordinates.headD []).length = blockCount A.coordinates + 1
        unfold blockCount
        omega
      · rw [hzeros_len]
        exact hiz
      · exact hql
      · rw [getD_map_of_lt _ _ _ _ [] (by rw [List.length_map, hzlen, ← hv2]; exact hiz)]
        rw [getD_zero_headD, hhead]
      · intro k hk
        have hpk : (stepPatterns A.coordinates).getD k [] =
            A.coordinates.map (fun row => decide (stepAt row k ≠ 0)) :=
          stepPatterns_getD A.coordinates k (by rw [← hwle]; exact hk)
        rw [hpk, getD_map_of_lt _ _ _ _ [] hiz]
        have hgd : A.coordinates.getD i [] = A.coordinates[i] :=
          getD_of_lt _ _ _ hiz
        rw [hgd]
        have hle : (A.coordinates[i]).getD k 0 ≤
            (A.coordinates[i]).getD (k + 1) 0 := chainLe_getD_le hchain k (by
          rw [hlen2]
          show k + 1 < (A.coordinates.headD []).length
          rw [hwle] at hk
          unfold blockCount at hk
          omega)
        rcases (hstep_block k hk).2 (A.coordinates[i]) (List.getElem_mem hiz) with
          h0 | h0
        · rw [h0]
          rw [if_neg (by simp)]
          unfold stepAt at h0
          omega
        · have hw1 : 1 ≤ (blockWidths A.coordinates).getD k 0 := (hstep_block k hk).1
          rw [h0]
          rw [if_pos (by rw [decide_eq_true_eq]; omega)]
          unfold stepAt at h0
          omega
  show parse (splitNl (joinLines (formatLines A))) = .ok A
  have hnl : ∀ l ∈ formatLines A, ∀ c ∈ l, c ≠ '\n' := by
    intro l hl c hc
    rw [hfl] at hl
    rcases mem_interleavePairs _ l hl with ⟨p, hp, he⟩ | ⟨p, hp, he⟩
    · obtain ⟨x, hx, hex⟩ := List.mem_map.mp hp
      obtain ⟨hro, _, _, _, _⟩ := hitems x hx
      obtain ⟨_, hidws, hdesc, _⟩ := recordOk_elim hro
      rw [← hex] at he
      rw [he] at hc
      simp only [List.mem_cons, List.mem_append] at hc
      rcases hc with (hc | hc) | (hc | hc)
      · subst hc; decide
      · exact ne_nl_of_not_ws (hidws c hc)
      · subst hc; decide
      · cases hde : x.1.description with
        | none => rw [hde] at hc; simp [descStr] at hc
        | some s =>
          rw [hde] at hc
          exact (hdesc s hde).2.2.2 c hc
    · obtain ⟨x, hx, hex⟩ := List.mem_map.mp hp
      rw [← hex] at he
      rw [he] at hc
      obtain ⟨hro, _, _, _, _⟩ := hitems x hx
      obtain ⟨_, _, _, hseq⟩ := recordOk_elim hro
      rcases gappedRow_chars _ _ _ c hc with h1 | h1
      · exact ne_nl_of_not_ws (hseq c h1).1
      · subst h1; decide
  have hflne : formatLines A ≠ [] := by
    rw [hfl]
    intro he
    cases hzz : (A.records.zip A.coordinates).map
        (fun x => (x.1, gappedRow x.1.seq x.2 (blockWidths A.coordinates))) with
    | nil => exact hzne (List.map_eq_nil_iff.mp hzz)
    | cons p t =>
      rw [hzz] at he
      obtain ⟨r, line⟩ := p
      simp [interleavePairs] at he
  rw [splitNl_joinLines _ hflne hnl, hfl]
  unfold parse
  rw [hscan2]
  dsimp only
  rw [if_neg hglne, hmk, hinfer]

/-- A valid alignment whose coordinate table is not minimal: its two
adjacent blocks have the same (all-non-gap) pattern. -/
def c3Bad : FastaAlignment :=
  ⟨[⟨"a".data, some "x".data, "AC".data⟩], [[0, 1, 2]]⟩

/-- C3: the round-trip claim fails for valid alignments in general: `c3Bad`
is valid, but parsing the writer's output merges its two identical-pattern
blocks, yielding coordinate table [[0, 2]] instead of the original
[[0, 1, 2]]. -/
theorem c3_counterexample :
    validA c3Bad = true ∧
    parseText (format_alignment c3Bad) = .ok ⟨c3Bad.records, [[0, 2]]⟩ ∧
    ([[0, 2]] : List (List Nat)) ≠ c3Bad.coordinates :=
  ⟨by decide, by decide, by decide⟩

/-- C3 witness: the Scenario A alignment is valid and minimal, and
round-trips exactly through the writer and the parser. -/
theorem c3_witness :
    validA c1Alignment = true ∧ minimalA c1Alignment = true ∧
    parseText (format_alignment c1Alignment) = .ok c1Alignment :=
  ⟨by decide, by decide, c3_roundtrip c1Alignment (by decide) (by decide)⟩
